import Mathlib

set_option maxRecDepth 20000

/-!
Verification of the artifact extractor, project classifier, native simulator and
sandbox scaffold of the code-generator repository.  The TypeScript sources
(`src/App.tsx` and `src/utils/compiler.ts`) are shallowly embedded: every
JavaScript string operation and every regular-expression scan is modelled by an
executable function over `List Char`, following the backtracking semantics of
the concrete regular expressions appearing in the source.
-/

namespace CodeGen

/-! ## Character classes (JavaScript `\s`, line terminators, ASCII case) -/

/-- The JavaScript whitespace class `\s` (WhiteSpace ∪ LineTerminator), as used
by `trim` and by the `\s` escapes in the source's regular expressions. -/
def jsWs (c : Char) : Bool :=
  c = ' ' || c = '\t' || c = '\n' || c = '\r' || c = '\x0b' || c = '\x0c' ||
  c = '\u00A0' || c = '\u1680' || ('\u2000' ≤ c && c ≤ '\u200A') ||
  c = '\u2028' || c = '\u2029' || c = '\u202F' || c = '\u205F' ||
  c = '\u3000' || c = '\uFEFF'

/-- JavaScript line terminators: the characters *not* matched by `.`. -/
def isLineTerm (c : Char) : Bool :=
  c = '\n' || c = '\r' || c = '\u2028' || c = '\u2029'

/-- ASCII lower-casing of one character (the fragment of
`String.prototype.toLowerCase` exercised by the repository's inputs). -/
def asciiLower (c : Char) : Char :=
  if 'A' ≤ c && c ≤ 'Z' then Char.ofNat (c.toNat + 32) else c

/-- ASCII letter, for the case-insensitive `[a-z]*` of the fence-stripping
regular expression. -/
def asciiAlpha (c : Char) : Bool :=
  ('a' ≤ c && c ≤ 'z') || ('A' ≤ c && c ≤ 'Z')

/-- ASCII digit or letter or underscore: the JavaScript word class `\w`,
used for the `\b` boundaries of the C++ keyword rewrites. -/
def jsWord (c : Char) : Bool :=
  ('a' ≤ c && c ≤ 'z') || ('A' ≤ c && c ≤ 'Z') || ('0' ≤ c && c ≤ '9') || c = '_'

/-! ## List-of-characters utilities

These model the primitive string operations of JavaScript: substring search
(`includes`, `indexOf`), first-occurrence replacement (`replace` with a string
pattern), `trim`, `split`, and `join`. -/

/-- `prefixOf n s` is true when `n` is a prefix of `s`. -/
def prefixOf : List Char → List Char → Bool
  | [], _ => true
  | _ :: _, [] => false
  | a :: as, b :: bs => if a = b then prefixOf as bs else false

/-- Number of (possibly overlapping) occurrences of `n` in `s`, counted as the
number of suffixes of `s` having `n` as a prefix. -/
def countOcc (n : List Char) : List Char → Nat
  | [] => if prefixOf n [] then 1 else 0
  | c :: t => (if prefixOf n (c :: t) then 1 else 0) + countOcc n t

/-- Substring test, modelling JavaScript `String.prototype.includes`. -/
def hasSub (n : List Char) : List Char → Bool
  | [] => prefixOf n []
  | c :: t => prefixOf n (c :: t) || hasSub n t

/-- `String.prototype.includes`, on `String`. -/
def strIncludes (s pat : String) : Bool := hasSub pat.data s.data

/-- Leftmost-occurrence split: `findSplit pat s = some (a, b)` when
`s = a ++ pat ++ b` and `pat` occurs nowhere earlier; this is the search made
by a lazy `[\s\S]*?` running up to the literal `pat`. -/
def findSplit (pat : List Char) : List Char → Option (List Char × List Char)
  | [] => if pat = [] then some ([], []) else none
  | c :: t =>
    if prefixOf pat (c :: t) then some ([], List.drop pat.length (c :: t))
    else match findSplit pat t with
      | some (a, b) => some (c :: a, b)
      | none => none

/-- First-occurrence replacement, modelling JavaScript
`String.prototype.replace` with a plain-string pattern. -/
def replaceOnce (pat rep : List Char) : List Char → List Char
  | [] => if pat = [] then rep else []
  | c :: t =>
    if prefixOf pat (c :: t) then rep ++ List.drop pat.length (c :: t)
    else c :: replaceOnce pat rep t

/-- JavaScript `String.prototype.trim` (both ends, `\s` class). -/
def trimJs (l : List Char) : List Char :=
  ((l.dropWhile jsWs).reverse.dropWhile jsWs).reverse

/-- `split` on a single separator character (JavaScript `split('\n')`,
`split('.')`…): always returns a non-empty list of segments. -/
def splitCh (sep : Char) : List Char → List (List Char)
  | [] => [[]]
  | c :: t =>
    if c = sep then [] :: splitCh sep t
    else match splitCh sep t with
      | [] => [[c]]
      | h :: r => (c :: h) :: r

/-- `Array.prototype.join` with a separator. -/
def joinSep (sep : List Char) : List (List Char) → List Char
  | [] => []
  | [x] => x
  | x :: y :: r => x ++ sep ++ joinSep sep (y :: r)

/-- Last element of a `split` result (JavaScript `arr[arr.length - 1]`),
with `[]` standing in for the impossible empty case. -/
def lastSeg : List (List Char) → List Char
  | [] => []
  | [x] => x
  | _ :: y :: r => lastSeg (y :: r)

/-! ## Length lemmas for the scanners (used for termination) -/

theorem prefixOf_length {n s : List Char} (h : prefixOf n s = true) :
    n.length ≤ s.length := by
  induction n generalizing s with
  | nil => simp
  | cons a as ih =>
    cases s with
    | nil => simp [prefixOf] at h
    | cons b bs =>
      simp only [prefixOf] at h
      split at h
      · simpa using ih h
      · exact absurd h (by simp)

theorem dropWhile_len (p : Char → Bool) (l : List Char) :
    (l.dropWhile p).length ≤ l.length := by
  induction l with
  | nil => simp [List.dropWhile]
  | cons c t ih =>
    simp only [List.dropWhile]
    split
    · exact Nat.le_succ_of_le ih
    · simp

theorem findSplit_length {pat s : List Char} {a b : List Char}
    (h : findSplit pat s = some (a, b)) : b.length + pat.length ≤ s.length := by
  induction s generalizing a with
  | nil =>
    simp only [findSplit] at h
    split at h
    · rename_i hp
      cases h
      simp [hp]
    · cases h
  | cons c t ih =>
    simp only [findSplit] at h
    split at h
    · rename_i hp
      cases h
      have := prefixOf_length hp
      simp only [List.length_drop, List.length_cons] at this ⊢
      omega
    · cases hfs : findSplit pat t with
      | none => rw [hfs] at h; cases h
      | some ab =>
        obtain ⟨a0, b0⟩ := ab
        rw [hfs] at h
        cases h
        have := ih hfs
        simp only [List.length_cons]
        omega

/-! ## The artifact extractor (`parseGeneratedContent`, src/App.tsx 746-803) -/

/-- The record produced by the extractor (`GeneratedFile` in `src/types.ts`). -/
structure GeneratedFile where
  name : String
  language : String
  content : String
deriving DecidableEq

/-- The opening delimiter with its colon, `***FILE_START:`. -/
def startColon : List Char := "***FILE_START:".data

/-- The bare opening marker token `***FILE_START`. -/
def startMk : List Char := "***FILE_START".data

/-- The closing delimiter `***FILE_END***`. -/
def endMk : List Char := "***FILE_END***".data

/-- Three asterisks, closing the filename field of the opening delimiter. -/
def stars3 : List Char := "***".data

/-- Matching of `\s*(.*?)\s*\*\*\*` after the colon of the opening delimiter
(in `/\*\*\*FILE_START:\s*(.*?)\s*\*\*\*([\s\S]*?)\*\*\*FILE_END\*\*\*/g`):
the caller first drops leading whitespace; then, extending the capture one
non-line-terminator character at a time, the first position from which
(after whitespace) three asterisks follow ends the capture. -/
def scanName : List Char → List Char → Option (List Char × List Char)
  | acc, s =>
    if prefixOf stars3 (s.dropWhile jsWs) then
      some (acc.reverse, (s.dropWhile jsWs).drop 3)
    else match s with
      | [] => none
      | c :: t => if isLineTerm c then none else scanName (c :: acc) t

theorem scanName_length {acc s : List Char} {cap out : List Char}
    (h : scanName acc s = some (cap, out)) : out.length ≤ s.length := by
  induction s generalizing acc with
  | nil =>
    rw [scanName] at h
    split at h
    · cases h
      simp [List.dropWhile]
    · cases h
  | cons c t ih =>
    rw [scanName] at h
    split at h
    · cases h
      calc ((List.dropWhile jsWs (c :: t)).drop 3).length
          ≤ (List.dropWhile jsWs (c :: t)).length := by
            simp [List.length_drop]
        _ ≤ (c :: t).length := dropWhile_len _ _
    · split at h
      · cases h
      · exact Nat.le_trans (ih h) (by simp)

/-- The trimmed body of a delimited block, with one leading fenced-code
marker line and one trailing fence stripped when present
(`content.replace(/^` ++ "```" ++ `[a-z]*\n/i, '').replace(/\n` ++ "```" ++ `$/, '')`). -/
def fenceHead (l : List Char) : List Char :=
  match l with
  | '`' :: '`' :: '`' :: rest =>
    match rest.dropWhile asciiAlpha with
    | '\n' :: r3 => r3
    | _ => l
  | _ => l

/-- Strip one trailing fence `\n` ++ three backticks, when the text ends with it. -/
def fenceTail (l : List Char) : List Char :=
  match l.reverse with
  | '`' :: '`' :: '`' :: '\n' :: r => r.reverse
  | _ => l

/-- Language tag from a filename: last `.`-separated segment, lower-cased,
`text` when that segment is empty (`filename.split('.').pop()?.toLowerCase() || 'text'`). -/
def langOf (filename : List Char) : List Char :=
  let ext := (lastSeg (splitCh '.' filename)).map asciiLower
  if ext = [] then "text".data else ext

/-- Build one extracted artifact from the two capture groups of the
delimiter regular expression. -/
def mkParsedFile (cap body : List Char) : GeneratedFile :=
  let filename := trimJs cap
  { name := String.mk filename
    language := String.mk (langOf filename)
    content := String.mk (fenceTail (fenceHead (trimJs body))) }

/-- One attempt of the delimiter regular expression at the head of `s`:
literal `***FILE_START:`, the filename capture, then the lazy body capture up
to the first `***FILE_END***`.  Returns the artifact and the rest of the text
after the match. -/
def tryDelimMatch (s : List Char) : Option (GeneratedFile × List Char) :=
  if prefixOf startColon s then
    match scanName [] ((s.drop 14).dropWhile jsWs) with
    | none => none
    | some (cap, afterStars) =>
      match findSplit endMk afterStars with
      | none => none
      | some (body, rest) => some (mkParsedFile cap body, rest)
  else none

theorem tryDelimMatch_length {s : List Char} {f : GeneratedFile} {rest : List Char}
    (h : tryDelimMatch s = some (f, rest)) : rest.length < s.length := by
  rw [tryDelimMatch] at h
  split at h
  · rename_i hpre
    have h14 : (14 : Nat) ≤ s.length := by
      have := prefixOf_length hpre
      simpa using this
    split at h
    · cases h
    · rename_i cap afterStars hscan
      split at h
      · cases h
      · rename_i body rest0 hfs
        cases h
        have h1 := findSplit_length hfs
        have h2 := scanName_length hscan
        have h3 : ((s.drop 14).dropWhile jsWs).length ≤ (s.drop 14).length :=
          dropWhile_len _ _
        have h4 : (s.drop 14).length = s.length - 14 := List.length_drop 14 s
        have h5 : endMk.length = 14 := by decide
        omega
  · cases h

/-- The global scan of
`/\*\*\*FILE_START:\s*(.*?)\s*\*\*\*([\s\S]*?)\*\*\*FILE_END\*\*\*/g` in a
`while (exec)` loop: at each index try the pattern; on success continue after
the match, otherwise advance one character. -/
def parseLoopGo : Nat → List Char → List GeneratedFile
  | 0, _ => []
  | _, [] => []
  | fuel + 1, c :: t =>
    match tryDelimMatch (c :: t) with
    | some fr => fr.1 :: parseLoopGo fuel fr.2
    | none => parseLoopGo fuel t

def parseLoopC (l : List Char) : List GeneratedFile :=
  parseLoopGo l.length l

theorem parseLoopGo_nil (f : Nat) : parseLoopGo f [] = [] := by
  cases f <;> rfl

theorem parseLoopGo_congr :
    ∀ (n : Nat) (l : List Char), l.length ≤ n → ∀ f g, l.length ≤ f →
      l.length ≤ g → parseLoopGo f l = parseLoopGo g l := by
  intro n
  induction n with
  | zero =>
    intro l hl f g _ _
    have : l = [] := List.eq_nil_of_length_eq_zero (Nat.le_zero.mp hl)
    subst this
    rw [parseLoopGo_nil, parseLoopGo_nil]
  | succ n ih =>
    intro l hl f g hf hg
    cases l with
    | nil => rw [parseLoopGo_nil, parseLoopGo_nil]
    | cons c t =>
      cases f with
      | zero => simp at hf
      | succ f' =>
        cases g with
        | zero => simp at hg
        | succ g' =>
          simp only [parseLoopGo]
          cases hstep : tryDelimMatch (c :: t) with
          | none =>
            show parseLoopGo f' t = parseLoopGo g' t
            exact ih t (by simp at hl ⊢; omega) f' g' (by simp at hf ⊢; omega)
              (by simp at hg ⊢; omega)
          | some fr =>
            have hlen := tryDelimMatch_length hstep
            simp only [List.length_cons] at hlen
            show fr.1 :: parseLoopGo f' fr.2 = fr.1 :: parseLoopGo g' fr.2
            rw [ih fr.2 (by simp at hl ⊢; omega) f' g' (by simp at hf ⊢; omega)
              (by simp at hg ⊢; omega)]

theorem parseLoopC_cons (c : Char) (t : List Char) :
    parseLoopC (c :: t) =
      match tryDelimMatch (c :: t) with
      | some fr => fr.1 :: parseLoopC fr.2
      | none => parseLoopC t := by
  show parseLoopGo (t.length + 1) (c :: t) = _
  simp only [parseLoopGo]
  cases hstep : tryDelimMatch (c :: t) with
  | none =>
    show parseLoopGo t.length t = parseLoopC t
    exact parseLoopGo_congr t.length t (Nat.le_refl _) _ _ (Nat.le_refl _)
      (Nat.le_refl _)
  | some fr =>
    have hlen := tryDelimMatch_length hstep
    simp only [List.length_cons] at hlen
    show fr.1 :: parseLoopGo t.length fr.2 = fr.1 :: parseLoopC fr.2
    exact congrArg _ (parseLoopGo_congr fr.2.length fr.2 (Nat.le_refl _) _ _
      (by omega) (Nat.le_refl _))

/-! Fallback extraction: fenced code blocks
(` ``` `-runs, `/(` ++ "`" ++ `{3,})([a-zA-Z0-9_-]*)\n([\s\S]*?)\1/g`). -/

/-- Character class `[a-zA-Z0-9_-]` of the fence language tag. -/
def fenceLangCh (c : Char) : Bool :=
  ('a' ≤ c && c ≤ 'z') || ('A' ≤ c && c ≤ 'Z') || ('0' ≤ c && c ≤ '9') ||
  c = '_' || c = '-'

/-- Character class of the filename hints: letters, digits, underscore, dot, slash, hyphen. -/
def nameHintCh (c : Char) : Bool :=
  ('a' ≤ c && c ≤ 'z') || ('A' ≤ c && c ≤ 'Z') || ('0' ≤ c && c ≤ '9') ||
  c = '_' || c = '.' || c = '/' || c = '-'

/-- Case-insensitive (ASCII) prefix test, for the `/i` flags of the source. -/
def ciPrefix : List Char → List Char → Bool
  | [], _ => true
  | _ :: _, [] => false
  | a :: as, b :: bs => if asciiLower a = asciiLower b then ciPrefix as bs else false

/-- One attempt of the fenced-block pattern at the head of `s`: a maximal run
of at least three backticks (the backreference requires the same run to close
the block), a language tag, a newline, then the lazy body up to the closing
run.  Returns language, body and the rest after the closing fence. -/
def tryFence (s : List Char) : Option (List Char × List Char × List Char) :=
  if (s.takeWhile (fun c => c = '`')).length < 3 then none
  else
    match (s.drop (s.takeWhile (fun c => c = '`')).length).dropWhile fenceLangCh with
    | '\n' :: r3 =>
      match findSplit (s.takeWhile (fun c => c = '`')) r3 with
      | some (body, rest) =>
        some ((s.drop (s.takeWhile (fun c => c = '`')).length).takeWhile fenceLangCh,
          body, rest)
      | none => none
    | _ => none

theorem tryFence_length {s lang body rest : List Char}
    (h : tryFence s = some (lang, body, rest)) : rest.length < s.length := by
  rw [tryFence] at h
  split at h
  · cases h
  · rename_i hrun
    split at h
    · rename_i r3 heq
      split at h
      · rename_i b0 r0 hfs
        cases h
        have h1 := findSplit_length hfs
        have h2 : ('\n' :: r3).length ≤ (s.drop (s.takeWhile (fun c => c = '`')).length).length := by
          rw [← heq]
          exact dropWhile_len _ _
        have h3 : (s.drop (s.takeWhile (fun c => c = '`')).length).length
            = s.length - (s.takeWhile (fun c => c = '`')).length := List.length_drop _ s
        simp only [List.length_cons] at h2
        omega
      · cases h
    · cases h

/-- Try the two filename-hint patterns of the fallback at one position of the
preceding line: `(?:file|filename):\s*([a-zA-Z0-9 _ . / -]+)` with a given label. -/
def tryLabel (lab : List Char) (l : List Char) : Option (List Char) :=
  if ciPrefix lab l then
    match l.drop lab.length with
    | ':' :: r =>
      let cap := (r.dropWhile jsWs).takeWhile nameHintCh
      if cap = [] then none else some cap
    | _ => none
  else none

/-- Leftmost search of `(?:file|filename)` then colon, whitespace, and a run of name characters, case-insensitively
(alternation tries `file` before `filename` at each position). -/
def hint1 : List Char → Option (List Char)
  | [] => none
  | c :: t =>
    match tryLabel "file".data (c :: t) with
    | some cap => some cap
    | none =>
      match tryLabel "filename".data (c :: t) with
      | some cap => some cap
      | none => hint1 t

/-- The anchored pattern `/^(<name chars>+):$/` on the whole line. -/
def hint2 (l : List Char) : Option (List Char) :=
  let run := l.takeWhile nameHintCh
  if run = [] then none
  else if l.drop run.length = [':'] then some run else none

/-- Extension synthesized from the language tag for unnamed fallback files. -/
def extFromLang (lang : List Char) : List Char :=
  if lang = "typescript".data || lang = "ts".data then "ts".data
  else if lang = "javascript".data || lang = "js".data then "js".data
  else "txt".data

/-- Name of a fallback artifact: the hint from the line preceding the block
when present, else `file_N.ext`. -/
def fbName (preceding : List Char) (counter : Nat) (lang : List Char) : List Char :=
  let lastLine := lastSeg (splitCh '\n' (trimJs preceding))
  match hint1 lastLine with
  | some nm => nm
  | none =>
    match hint2 lastLine with
    | some nm => nm
    | none => ("file_" ++ Nat.repr counter ++ ".").data ++ extFromLang lang

/-- The fallback scan over the whole text.  `pre` is the reversed prefix of
the original text before the current position (the `text.substring(0,
cbMatch.index)` of the source looks back through it). -/
def fbGo : Nat → List Char → List Char → Nat → List GeneratedFile
  | 0, _, _, _ => []
  | _, _, [], _ => []
  | fuel + 1, pre, c :: t, counter =>
    match tryFence (c :: t) with
    | some lbr =>
      { name := String.mk (fbName pre.reverse counter lbr.1)
        language := String.mk (if lbr.1 = [] then "text".data else lbr.1)
        content := String.mk (trimJs lbr.2.1) } ::
        fbGo fuel (((c :: t).take ((c :: t).length - lbr.2.2.length)).reverse ++ pre)
          lbr.2.2 (counter + 1)
    | none => fbGo fuel (c :: pre) t counter

def fbLoop (pre : List Char) (l : List Char) (counter : Nat) :
    List GeneratedFile :=
  fbGo l.length pre l counter

/-- `parseGeneratedContent` (src/App.tsx 746-803): primary delimiter scan,
falling back to fenced blocks when it finds nothing. -/
def parseGeneratedContent (text : String) : List GeneratedFile :=
  let files := parseLoopC text.data
  if files.isEmpty then fbLoop [] text.data 1 else files

/-! ## `cleanResponseText` (src/App.tsx 805-808) -/

/-- The global replace of `/\*\*\*FILE_START[\s\S]*?\*\*\*FILE_END\*\*\*/g`
by the empty string: keep characters, skipping each leftmost match. -/
def cleanGo : Nat → List Char → List Char
  | 0, l => l
  | _, [] => []
  | fuel + 1, c :: t =>
    if prefixOf startMk (c :: t) then
      match findSplit endMk ((c :: t).drop 13) with
      | some br => cleanGo fuel br.2
      | none => c :: cleanGo fuel t
    else c :: cleanGo fuel t

def cleanLoop (l : List Char) : List Char :=
  cleanGo l.length l

theorem cleanGo_nil (f : Nat) : cleanGo f [] = [] := by
  cases f <;> rfl

theorem cleanGo_congr :
    ∀ (n : Nat) (l : List Char), l.length ≤ n → ∀ f g, l.length ≤ f →
      l.length ≤ g → cleanGo f l = cleanGo g l := by
  intro n
  induction n with
  | zero =>
    intro l hl f g _ _
    have : l = [] := List.eq_nil_of_length_eq_zero (Nat.le_zero.mp hl)
    subst this
    rw [cleanGo_nil, cleanGo_nil]
  | succ n ih =>
    intro l hl f g hf hg
    cases l with
    | nil => rw [cleanGo_nil, cleanGo_nil]
    | cons c t =>
      cases f with
      | zero => simp at hf
      | succ f' =>
        cases g with
        | zero => simp at hg
        | succ g' =>
          simp only [cleanGo]
          split
          · cases hfs : findSplit endMk ((c :: t).drop 13) with
            | none =>
              show c :: cleanGo f' t = c :: cleanGo g' t
              rw [ih t (by simp at hl ⊢; omega) f' g' (by simp at hf ⊢; omega)
                (by simp at hg ⊢; omega)]
            | some br =>
              have h1 := findSplit_length hfs
              have h2 : ((c :: t).drop 13).length = (c :: t).length - 13 :=
                List.length_drop _ _
              have h3 : endMk.length = 14 := by decide
              simp only [List.length_cons] at h1 h2 hl hf hg
              show cleanGo f' br.2 = cleanGo g' br.2
              rw [ih br.2 (by omega) f' g' (by omega) (by omega)]
          · show c :: cleanGo f' t = c :: cleanGo g' t
            rw [ih t (by simp at hl ⊢; omega) f' g' (by simp at hf ⊢; omega)
              (by simp at hg ⊢; omega)]

theorem cleanLoop_cons (c : Char) (t : List Char) :
    cleanLoop (c :: t) =
      if prefixOf startMk (c :: t) then
        match findSplit endMk ((c :: t).drop 13) with
        | some br => cleanLoop br.2
        | none => c :: cleanLoop t
      else c :: cleanLoop t := by
  show cleanGo (t.length + 1) (c :: t) = _
  simp only [cleanGo]
  split
  · cases hfs : findSplit endMk ((c :: t).drop 13) with
    | none =>
      show c :: cleanGo t.length t = c :: cleanLoop t
      exact congrArg _ (cleanGo_congr t.length t (Nat.le_refl _) _ _ (Nat.le_refl _)
        (Nat.le_refl _))
    | some br =>
      have h1 := findSplit_length hfs
      have h2 : ((c :: t).drop 13).length = (c :: t).length - 13 :=
        List.length_drop _ _
      have h3 : endMk.length = 14 := by decide
      simp only [List.length_cons] at h1 h2
      show cleanGo t.length br.2 = cleanLoop br.2
      exact cleanGo_congr br.2.length br.2 (Nat.le_refl _) _ _ (by omega)
        (Nat.le_refl _)
  · show c :: cleanGo t.length t = c :: cleanLoop t
    exact congrArg _ (cleanGo_congr t.length t (Nat.le_refl _) _ _ (Nat.le_refl _)
      (Nat.le_refl _))

/-- `cleanResponseText`: remove every delimited file block, then trim. -/
def cleanResponseText (text : String) : String :=
  String.mk (trimJs (cleanLoop text.data))

/-! ## Template literals of `src/utils/compiler.ts`

The HTML scaffolds, console bridge, shims and script wrappers, transcribed
character-for-character from the template literals of the source (whitespace
included). -/

/-- Template literal transcribed verbatim from `src/utils/compiler.ts`. -/
def consoleHookStr : List Char := "\n<script>\n  (function() \x7b\n    function send(type, args) \x7b\n      try \x7b\n        const message = args.map(arg => \x7b\n          if (arg === null) return \x27null\x27;\n          if (arg === undefined) return \x27undefined\x27;\n          if (typeof arg === \x27object\x27) \x7b\n            try \x7b return JSON.stringify(arg, null, 2); \x7d catch(e) \x7b return arg.toString(); \x7d\n          \x7d\n          return String(arg);\n        \x7d).join(\x27 \x27);\n        window.parent.postMessage(\x7b source: \x27PREVIEW_CONSOLE\x27, type, message \x7d, \x27*\x27);\n      \x7d catch (e) \x7b\n        console.error(\x27Failed to send console log\x27, e);\n      \x7d\n    \x7d\n\n    const originalLog = console.log;\n    const originalError = console.error;\n    const originalWarn = console.warn;\n    const originalInfo = console.info;\n\n    console.log = function(...args) \x7b originalLog.apply(console, args); send(\x27log\x27, args); \x7d;\n    console.error = function(...args) \x7b originalError.apply(console, args); send(\x27error\x27, args); \x7d;\n    console.warn = function(...args) \x7b originalWarn.apply(console, args); send(\x27warn\x27, args); \x7d;\n    console.info = function(...args) \x7b originalInfo.apply(console, args); send(\x27info\x27, args); \x7d;\n    \n    // Global Error Handler for Preview\n    window.onerror = function(message, source, lineno, colno, error) \x7b\n       send(\x27error\x27, [message]);\n       \n       // Display error on screen if root is empty (likely a crash before render)\n       const root = document.getElementById(\x27root\x27);\n       if (root && root.innerHTML.trim() === \x27\x27) \x7b\n         root.innerHTML = \x27<div style=\"color: #f87171; background: #450a0a; padding: 20px; font-family: system-ui, sans-serif; border-radius: 8px; margin: 20px; border: 1px solid #7f1d1d;\">\x27 +\n           \x27<h3 style=\"margin-top:0\">Preview Error</h3>\x27 +\n           \x27<pre style=\"white-space: pre-wrap;\">\x27 + message + \x27</pre>\x27 +\n           \x27<p style=\"opacity: 0.8; font-size: 0.9em; margin-top: 10px;\">Check console for details.</p>\x27 +\n         \x27</div>\x27;\n       \x7d\n       return false;\n    \x7d;\n\n    // Unhandled Rejection Handler\n    window.addEventListener(\x27unhandledrejection\x27, function(event) \x7b\n       send(\x27error\x27, [\x27Unhandled Promise Rejection: \x27 + event.reason]);\n    \x7d);\n  \x7d)();\n</script>".data

/-- Template literal transcribed verbatim from `src/utils/compiler.ts`. -/
def nativePre : List Char := "\n<!DOCTYPE html>\n<html>\n<head>\n  <meta charset=\"utf-8\">\n  ".data

/-- Template literal transcribed verbatim from `src/utils/compiler.ts`. -/
def nativeMid : List Char := "\n  <style>body \x7b background-color: #0f172a; color: #f8fafc; font-family: monospace; padding: 20px; \x7d</style>\n</head>\n<body>\n  <script>\n    setTimeout(() => \x7b\n      ".data

/-- Template literal transcribed verbatim from `src/utils/compiler.ts`. -/
def nativePost : List Char := "\n    \x7d, 500);\n  </script>\n</body>\n</html>".data

/-- Template literal transcribed verbatim from `src/utils/compiler.ts`. -/
def liquidPre : List Char := "\n<!DOCTYPE html>\n<html lang=\"en\">\n<head>\n  <meta charset=\"UTF-8\">\n  <meta name=\"viewport\" content=\"width=device-width, initial-scale=1.0\">\n  <title>Liquid Preview</title>\n  <style>\n    body, html \x7b \n      background-color: #ffffff; \n      color: #1e293b; \n      margin: 0; \n      padding: 0;\n      height: 100%;\n      width: 100%;\n      font-family: system-ui, -apple-system, sans-serif; \n    \x7d\n  </style>\n</head>\n<body>\n  ".data

/-- Template literal transcribed verbatim from `src/utils/compiler.ts`. -/
def liquidMid : List Char := "\n  <script>".data

/-- Template literal transcribed verbatim from `src/utils/compiler.ts`. -/
def liquidPost : List Char := "</script>\n</body>\n</html>".data

/-- Template literal transcribed verbatim from `src/utils/compiler.ts`. -/
def defaultShellStr : List Char := "\n<!DOCTYPE html>\n<html lang=\"en\">\n<head>\n  <meta charset=\"UTF-8\">\n  <meta name=\"viewport\" content=\"width=device-width, initial-scale=1.0\">\n  <title>Preview</title>\n  <style>\n    body, html \x7b \n      background-color: #ffffff; \n      color: #1e293b; \n      margin: 0; \n      padding: 0;\n      height: 100%;\n      width: 100%;\n      font-family: system-ui, -apple-system, sans-serif; \n    \x7d\n    #root \x7b \n      min-height: 100%; \n      display: flex;\n      flex-direction: column;\n    \x7d\n  </style>\n</head>\n<body>\n  <div id=\"root\"></div>\n</body>\n</html>".data

/-- Template literal transcribed verbatim from `src/utils/compiler.ts`. -/
def processShimStr : List Char := "\n      window.process = \x7b \n        env: \x7b NODE_ENV: \x27development\x27 \x7d \n      \x7d;\n    ".data

/-- Template literal transcribed verbatim from `src/utils/compiler.ts`. -/
def mountScriptStr : List Char := "\n         if (typeof App !== \x27undefined\x27) \x7b\n           const root = ReactDOM.createRoot(document.getElementById(\x27root\x27));\n           root.render(React.createElement(App));\n         \x7d\n       ".data

/-- Template literal transcribed verbatim from `src/utils/compiler.ts`. -/
def appPre : List Char := "<script type=\"text/babel\" data-type=\"module\">\n      ".data

/-- Template literal transcribed verbatim from `src/utils/compiler.ts`. -/
def appA : List Char := "\n      ".data

/-- Template literal transcribed verbatim from `src/utils/compiler.ts`. -/
def appB : List Char := "\n      \n      // Error boundary wrapper for safety\n      try \x7b\n        ".data

/-- Template literal transcribed verbatim from `src/utils/compiler.ts`. -/
def appC : List Char := "\n        ".data

/-- Template literal transcribed verbatim from `src/utils/compiler.ts`. -/
def appPost : List Char := "\n      \x7d catch (err) \x7b\n        console.error(\"Runtime Script Error:\", err);\n        const root = document.getElementById(\x27root\x27);\n        if (root) \x7b\n          root.innerHTML = \x27<div style=\"color:red; padding:20px;\"><h3>Script Error</h3><pre>\x27 + err.message + \x27</pre></div>\x27;\n        \x7d\n      \x7d\n    </script>".data

/-- Template literal transcribed verbatim from `src/utils/compiler.ts`. -/
def babelScriptStr : List Char := "<script src=\"https://unpkg.com/@babel/standalone/babel.min.js\"></script>".data

/-- Template literal transcribed verbatim from `src/utils/compiler.ts`. -/
def cppWrapPre : List Char := "\n    console.log(\"⚡ C++ Interactive Simulation Started\");\n    console.log(\"-------------------------------------\");\n    try \x7b\n      (async function() \x7b\n        ".data

/-- Template literal transcribed verbatim from `src/utils/compiler.ts`. -/
def cppWrapPost : List Char := "\n      \x7d)();\n      console.log(\"-------------------------------------\");\n      console.log(\"Process finished with exit code 0\");\n    \x7d catch (e) \x7b\n      console.error(\"Runtime Error:\", e.message);\n    \x7d\n  ".data

/-- Template literal transcribed verbatim from `src/utils/compiler.ts`. -/
def importMapJson : List Char := "\x7b\"imports\":\x7b\"react\":\"https://esm.sh/react@18.2.0\",\"react-dom\":\"https://esm.sh/react-dom@18.2.0\",\"react-dom/client\":\"https://esm.sh/react-dom@18.2.0/client\",\"clsx\":\"https://esm.sh/clsx\",\"tailwind-merge\":\"https://esm.sh/tailwind-merge\",\"date-fns\":\"https://esm.sh/date-fns\",\"lodash\":\"https://esm.sh/lodash\",\"axios\":\"https://esm.sh/axios\",\"uuid\":\"https://esm.sh/uuid\",\"framer-motion\":\"https://esm.sh/framer-motion@10.16.4\",\"lucide-react\":\"https://esm.sh/lucide-react@0.263.1\",\"recharts\":\"https://esm.sh/recharts@2.10.3\",\"react-icons\":\"https://esm.sh/react-icons@4.10.1\",\"react-icons/fa\":\"https://esm.sh/react-icons@4.10.1/fa\",\"react-icons/md\":\"https://esm.sh/react-icons@4.10.1/md\",\"react-icons/fi\":\"https://esm.sh/react-icons@4.10.1/fi\",\"react-icons/bi\":\"https://esm.sh/react-icons@4.10.1/bi\",\"react-icons/ai\":\"https://esm.sh/react-icons@4.10.1/ai\",\"react-icons/bs\":\"https://esm.sh/react-icons@4.10.1/bs\",\"react-slick\":\"https://esm.sh/react-slick@0.29.0\",\"slick-carousel\":\"https://esm.sh/slick-carousel@1.8.1\",\"swiper\":\"https://esm.sh/swiper@10.0.0\",\"swiper/react\":\"https://esm.sh/swiper@10.0.0/react\",\"swiper/css\":\"https://esm.sh/swiper@10.0.0/css\",\"react-markdown\":\"https://esm.sh/react-markdown@9.0.0\",\"three\":\"https://esm.sh/three@0.154.0\",\"@react-three/fiber\":\"https://esm.sh/@react-three/fiber@8.13.0\",\"@react-three/drei\":\"https://esm.sh/@react-three/drei@9.77.0\"\x7d\x7d".data

/-- Template literal transcribed verbatim from `src/utils/compiler.ts`. -/
def slick1 : List Char := "<link rel=\"stylesheet\" type=\"text/css\" charset=\"UTF-8\" href=\"https://cdnjs.cloudflare.com/ajax/libs/slick-carousel/1.6.0/slick.min.css\" /> \n".data

/-- Template literal transcribed verbatim from `src/utils/compiler.ts`. -/
def slick2 : List Char := "<link rel=\"stylesheet\" type=\"text/css\" href=\"https://cdnjs.cloudflare.com/ajax/libs/slick-carousel/1.6.0/slick-theme.min.css\" /> \n".data

/-! ## Generic drivers for the global regular-expression rewrites

Every `String.prototype.replace(regex, …)` with the `g` flag scans left to
right: at each index it attempts the pattern; on a match it emits the
replacement and resumes after the matched text, otherwise it keeps the
character and advances.  `rewriteG` is that driver; the per-pattern `step`
functions attempt one match at the head of the text and return the
replacement together with the rest of the text after the match.  The inner
length test is only a termination guard: every pattern of the source consumes
at least one character, so the guard's else-branch is never taken. -/

def rewriteGo (step : List Char → Option (List Char × List Char)) :
    Nat → List Char → List Char
  | 0, l => l
  | _, [] => []
  | fuel + 1, c :: t =>
    match step (c :: t) with
    | some (rep, rest) =>
      if rest.length < (c :: t).length then rep ++ rewriteGo step fuel rest
      else c :: rewriteGo step fuel t
    | none => c :: rewriteGo step fuel t

def rewriteG (step : List Char → Option (List Char × List Char))
    (l : List Char) : List Char :=
  rewriteGo step l.length l

theorem rewriteGo_nil (step : List Char → Option (List Char × List Char))
    (f : Nat) : rewriteGo step f [] = [] := by
  cases f <;> rfl

theorem rewriteGo_congr (step : List Char → Option (List Char × List Char)) :
    ∀ (n : Nat) (l : List Char), l.length ≤ n → ∀ f g, l.length ≤ f →
      l.length ≤ g → rewriteGo step f l = rewriteGo step g l := by
  intro n
  induction n with
  | zero =>
    intro l hl f g _ _
    have : l = [] := List.eq_nil_of_length_eq_zero (Nat.le_zero.mp hl)
    subst this
    rw [rewriteGo_nil, rewriteGo_nil]
  | succ n ih =>
    intro l hl f g hf hg
    cases l with
    | nil => rw [rewriteGo_nil, rewriteGo_nil]
    | cons c t =>
      cases f with
      | zero => simp at hf
      | succ f' =>
        cases g with
        | zero => simp at hg
        | succ g' =>
          simp only [rewriteGo]
          cases hstep : step (c :: t) with
          | none =>
            rw [ih t (by simp at hl ⊢; omega) f' g' (by simp at hf ⊢; omega)
              (by simp at hg ⊢; omega)]
          | some pr =>
            obtain ⟨rep, rest⟩ := pr
            show (if rest.length < (c :: t).length then rep ++ rewriteGo step f' rest
                else c :: rewriteGo step f' t) =
              (if rest.length < (c :: t).length then rep ++ rewriteGo step g' rest
                else c :: rewriteGo step g' t)
            split
            · rename_i hlt
              have hlt2 : rest.length < t.length + 1 := by simpa using hlt
              rw [ih rest (by simp at hl ⊢; omega) f' g' (by simp at hf ⊢; omega)
                (by simp at hg ⊢; omega)]
            · rw [ih t (by simp at hl ⊢; omega) f' g' (by simp at hf ⊢; omega)
                (by simp at hg ⊢; omega)]

theorem rewriteG_cons (step : List Char → Option (List Char × List Char))
    (c : Char) (t : List Char) :
    rewriteG step (c :: t) =
      match step (c :: t) with
      | some (rep, rest) =>
        if rest.length < (c :: t).length then rep ++ rewriteG step rest
        else c :: rewriteG step t
      | none => c :: rewriteG step t := by
  show rewriteGo step (t.length + 1) (c :: t) = _
  simp only [rewriteGo]
  cases hstep : step (c :: t) with
  | none =>
    exact congrArg _ (rewriteGo_congr step t.length t (Nat.le_refl _) _ _
      (Nat.le_refl _) (Nat.le_refl _))
  | some pr =>
    obtain ⟨rep, rest⟩ := pr
    show (if rest.length < (c :: t).length then rep ++ rewriteGo step t.length rest
        else c :: rewriteGo step t.length t) =
      (if rest.length < (c :: t).length then rep ++ rewriteG step rest
        else c :: rewriteG step t)
    split
    · rename_i hlt
      have hlt2 : rest.length < t.length + 1 := by simpa using hlt
      exact congrArg _ (rewriteGo_congr step rest.length rest (Nat.le_refl _) _ _
        (by omega) (Nat.le_refl _))
    · exact congrArg _ (rewriteGo_congr step t.length t (Nat.le_refl _) _ _
        (Nat.le_refl _) (Nat.le_refl _))

/-- Like `rewriteG` but collecting one item per match instead of rewriting
(the `while ((match = re.exec(content)) !== null)` loops of the simulator). -/
def collectGo (step : List Char → Option (List Char × List Char)) :
    Nat → List Char → List (List Char)
  | 0, _ => []
  | _, [] => []
  | fuel + 1, c :: t =>
    match step (c :: t) with
    | some (item, rest) =>
      if rest.length < (c :: t).length then item :: collectGo step fuel rest
      else collectGo step fuel t
    | none => collectGo step fuel t

def collectG (step : List Char → Option (List Char × List Char))
    (l : List Char) : List (List Char) :=
  collectGo step l.length l

/-- First match of a non-global regular expression (`String.prototype.match`):
try the pattern at each successive index and return the first success. -/
def findFirstG (step : List Char → Option α) : List Char → Option α
  | [] => none
  | c :: t =>
    match step (c :: t) with
    | some a => some a
    | none => findFirstG step t

/-- Global replacement of a plain substring (`.replace(/std::/g, '')`,
`.replace(/"/g, '\\"')`…). -/
def replaceAllGo (pat rep : List Char) : Nat → List Char → List Char
  | 0, l => l
  | _, [] => []
  | fuel + 1, c :: t =>
    if pat ≠ [] ∧ prefixOf pat (c :: t) = true then
      rep ++ replaceAllGo pat rep fuel (List.drop pat.length (c :: t))
    else c :: replaceAllGo pat rep fuel t

def replaceAllL (pat rep : List Char) (l : List Char) : List Char :=
  replaceAllGo pat rep l.length l

theorem replaceAllGo_nil (pat rep : List Char) (f : Nat) :
    replaceAllGo pat rep f [] = [] := by
  cases f <;> rfl

theorem replaceAllGo_congr (pat rep : List Char) :
    ∀ (n : Nat) (l : List Char), l.length ≤ n → ∀ f g, l.length ≤ f →
      l.length ≤ g → replaceAllGo pat rep f l = replaceAllGo pat rep g l := by
  intro n
  induction n with
  | zero =>
    intro l hl f g _ _
    have : l = [] := List.eq_nil_of_length_eq_zero (Nat.le_zero.mp hl)
    subst this
    rw [replaceAllGo_nil, replaceAllGo_nil]
  | succ n ih =>
    intro l hl f g hf hg
    cases l with
    | nil => rw [replaceAllGo_nil, replaceAllGo_nil]
    | cons c t =>
      cases f with
      | zero => simp at hf
      | succ f' =>
        cases g with
        | zero => simp at hg
        | succ g' =>
          simp only [replaceAllGo]
          split
          · rename_i hcond
            have hplen : 1 ≤ pat.length := by
              cases hp : pat with
              | nil => exact absurd hp hcond.1
              | cons x xs => simp
            have hdl : (List.drop pat.length (c :: t)).length = (c :: t).length - pat.length :=
              List.length_drop _ _
            rw [ih (List.drop pat.length (c :: t)) (by simp at hl ⊢; omega) f' g'
              (by simp only [hdl] at *; simp at hf ⊢; omega)
              (by simp only [hdl] at *; simp at hg ⊢; omega)]
          · rw [ih t (by simp at hl ⊢; omega) f' g' (by simp at hf ⊢; omega)
              (by simp at hg ⊢; omega)]

theorem replaceAllL_cons (pat rep : List Char) (c : Char) (t : List Char) :
    replaceAllL pat rep (c :: t) =
      if pat ≠ [] ∧ prefixOf pat (c :: t) = true then
        rep ++ replaceAllL pat rep (List.drop pat.length (c :: t))
      else c :: replaceAllL pat rep t := by
  show replaceAllGo pat rep (t.length + 1) (c :: t) = _
  simp only [replaceAllGo]
  split
  · rename_i hcond
    have hplen : 1 ≤ pat.length := by
      cases hp : pat with
      | nil => exact absurd hp hcond.1
      | cons x xs => simp
    have hdl : (List.drop pat.length (c :: t)).length = (c :: t).length - pat.length :=
      List.length_drop _ _
    exact congrArg _ (replaceAllGo_congr pat rep _ _ (Nat.le_refl _) _ _
      (by simp only [hdl]; simp; omega) (Nat.le_refl _))
  · exact congrArg _ (replaceAllGo_congr pat rep _ _ (Nat.le_refl _) _ _
      (Nat.le_refl _) (Nat.le_refl _))

/-- `String.prototype.split` with a multi-character separator
(`content.split('<<')`). -/
def splitSubGo (sep : List Char) : Nat → List Char → List (List Char)
  | 0, l => [l]
  | _, [] => [[]]
  | fuel + 1, c :: t =>
    if sep ≠ [] ∧ prefixOf sep (c :: t) = true then
      [] :: splitSubGo sep fuel (List.drop sep.length (c :: t))
    else match splitSubGo sep fuel t with
      | [] => [[c]]
      | hh :: r => (c :: hh) :: r

def splitSub (sep : List Char) (l : List Char) : List (List Char) :=
  splitSubGo sep l.length l

/-! ## Pattern-matching combinators

The regular expressions of the source are sequences of literals, `\s+`/`\s*`
runs (always followed by a non-whitespace literal, hence deterministic), lazy
`.`/`[\s\S]` captures up to a literal, and greedy character-class runs.  Each
is one combinator here. -/

/-- Consume a literal. -/
def eatLit (lit s : List Char) : Option (List Char) :=
  if prefixOf lit s then some (s.drop lit.length) else none

/-- Consume `\s+` (at least one whitespace character); the following pattern
element is always a non-whitespace literal, so the greedy run is exact. -/
def eatWs1 (s : List Char) : Option (List Char) :=
  match s with
  | [] => none
  | c :: t => if jsWs c then some (t.dropWhile jsWs) else none

/-- Consume `\s*`. -/
def eatWs0 (s : List Char) : List Char := s.dropWhile jsWs

/-- Lazy `.*?` up to a one-character literal (fails at a line terminator,
which `.` does not match). -/
def scanToCh (stop : Char) : List Char → Option (List Char)
  | [] => none
  | c :: t =>
    if c = stop then some t
    else if isLineTerm c then none
    else scanToCh stop t

/-! ## The C++ transpiler (`transpileCppToJs`, src/utils/compiler.ts 7-66) -/

/-- `/#include\s+<.*?>/g`. -/
def includeStep (s : List Char) : Option (List Char × List Char) :=
  match eatLit "#include".data s with
  | none => none
  | some r =>
    match eatWs1 r with
    | none => none
    | some r2 =>
      match r2 with
      | '<' :: r3 =>
        match scanToCh '>' r3 with
        | some rest => some ([], rest)
        | none => none
      | _ => none

/-- `/using\s+namespace\s+std;/g`. -/
def usingStep (s : List Char) : Option (List Char × List Char) :=
  match eatLit "using".data s with
  | none => none
  | some r =>
    match eatWs1 r with
    | none => none
    | some r2 =>
      match eatLit "namespace".data r2 with
      | none => none
      | some r3 =>
        match eatWs1 r3 with
        | none => none
        | some r4 =>
          match eatLit "std;".data r4 with
          | none => none
          | some rest => some ([], rest)

/-- `/return\s+0;/g`. -/
def returnZeroStep (s : List Char) : Option (List Char × List Char) :=
  match eatLit "return".data s with
  | none => none
  | some r =>
    match eatWs1 r with
    | none => none
    | some r2 =>
      match eatLit "0;".data r2 with
      | none => none
      | some rest => some ([], rest)

/-- Capture of the greedy `([\s\S]*)\}`: everything up to the *last* closing
brace, or failure when there is none. -/
def lastBraceCapture (r : List Char) : Option (List Char) :=
  match r.reverse.dropWhile (fun c => !decide (c = '\x7d')) with
  | '\x7d' :: rest2 => some rest2.reverse
  | _ => none

/-- One attempt of `/int\s+main\s*\(\)\s*\{([\s\S]*)\}/` (non-global: first
match wins); returns the captured body. -/
def mainStep (s : List Char) : Option (List Char) :=
  match eatLit "int".data s with
  | none => none
  | some r =>
    match eatWs1 r with
    | none => none
    | some r2 =>
      match eatLit "main".data r2 with
      | none => none
      | some r3 =>
        match eatLit "()".data (eatWs0 r3) with
        | none => none
        | some r4 =>
          match eatLit "\x7b".data (eatWs0 r4) with
          | none => none
          | some r5 => lastBraceCapture r5

/-- `\b` on the left of a keyword: start of text or a preceding non-word
character. -/
def wordBoundary (prev : Option Char) : Bool :=
  match prev with
  | none => true
  | some c => !jsWord c

/-- `\b` on the right of a keyword: end of text or a following non-word
character. -/
def wordBoundaryEnd (s : List Char) : Bool :=
  match s with
  | [] => true
  | c :: _ => !jsWord c

/-- A rewrite driver that also tracks the character preceding the scan
position, for the `\b` assertions of the keyword rewrites.  On a match the
third component of the step result is the last character of the matched text
(the context for the next position in the original string). -/
def rewriteGBGo (step : Option Char → List Char → Option (List Char × Option Char × List Char)) :
    Nat → Option Char → List Char → List Char
  | 0, _, l => l
  | _, _, [] => []
  | fuel + 1, p, c :: t =>
    match step p (c :: t) with
    | some (rep, q, rest) =>
      if rest.length < (c :: t).length then rep ++ rewriteGBGo step fuel q rest
      else c :: rewriteGBGo step fuel (some c) t
    | none => c :: rewriteGBGo step fuel (some c) t

def rewriteGB (step : Option Char → List Char → Option (List Char × Option Char × List Char))
    (p : Option Char) (l : List Char) : List Char :=
  rewriteGBGo step l.length p l

/-- `/\blong\s+long\b/g` → `let`. -/
def longLongStep (prev : Option Char) (s : List Char) :
    Option (List Char × Option Char × List Char) :=
  if wordBoundary prev then
    match eatLit "long".data s with
    | none => none
    | some r =>
      match eatWs1 r with
      | none => none
      | some r2 =>
        match eatLit "long".data r2 with
        | none => none
        | some rest =>
          if wordBoundaryEnd rest then some ("let".data, some 'g', rest) else none
  else none

/-- The keyword alternation of
`/\b(int|long|float|double|char|string|bool|auto|const)\b/g`. -/
def cppKeywords : List (List Char) :=
  ["int".data, "long".data, "float".data, "double".data, "char".data,
   "string".data, "bool".data, "auto".data, "const".data]

/-- Try the keyword alternatives in order at one position. -/
def kwTry : List (List Char) → List Char → Option (List Char × Option Char × List Char)
  | [], _ => none
  | kw :: more, s =>
    match eatLit kw s with
    | some rest =>
      if wordBoundaryEnd rest then some ("let".data, kw.getLast?, rest)
      else kwTry more s
    | none => kwTry more s

/-- `/\b(int|long|float|double|char|string|bool|auto|const)\b/g` → `let`. -/
def kwStep (prev : Option Char) (s : List Char) :
    Option (List Char × Option Char × List Char) :=
  if wordBoundary prev then kwTry cppKeywords s else none

/-- Variable-name class `[a-zA-Z0-9_]` of the `cin` rewrite. -/
def cinVarCh (c : Char) : Bool := jsWord c

/-- The replacement text of the `cin` rewrite (the template of
src/utils/compiler.ts 30-32), instantiated at the captured variable name. -/
def cinRepl (v : List Char) : List Char :=
  v ++ " = prompt(\"Interactive Input required for \x27".data ++ v ++
  "\x27:\");\n".data ++
  "if(".data ++ v ++ " !== null && !isNaN(Number(".data ++ v ++ ")) && ".data ++
  v ++ ".trim() !== \x27\x27) ".data ++ v ++ " = Number(".data ++ v ++
  ");\n".data ++
  "console.log(\"[Input] ".data ++ v ++ " =\", ".data ++ v ++ ");".data

/-- `/cin\s*>>\s*([a-zA-Z0-9_]+)\s*;/g`. -/
def cinStep (s : List Char) : Option (List Char × List Char) :=
  match eatLit "cin".data s with
  | none => none
  | some r =>
    match eatLit ">>".data (eatWs0 r) with
    | none => none
    | some r2 =>
      let r3 := eatWs0 r2
      let v := r3.takeWhile cinVarCh
      if v = [] then none
      else
        match eatLit ";".data (eatWs0 (r3.drop v.length)) with
        | none => none
        | some rest => some (cinRepl v, rest)

/-- `content.replace(/^cout\s*<<\s*/, '')` (anchored, first match only). -/
def coutHeadStrip (content : List Char) : List Char :=
  match eatLit "cout".data content with
  | none => content
  | some r =>
    match eatLit "<<".data (eatWs0 r) with
    | none => content
    | some r2 => eatWs0 r2

/-- `content.replace(/;$/, '')`. -/
def dropFinalSemi (content : List Char) : List Char :=
  match content.reverse with
  | ';' :: r => r.reverse
  | _ => content

/-- The per-line `cout` rewrite of src/utils/compiler.ts 37-50. -/
def coutLineTransform (line : List Char) : List Char :=
  if prefixOf "cout".data (trimJs line) then
    let content := dropFinalSemi (coutHeadStrip (trimJs line))
    let parts := (splitSub "<<".data content).map trimJs
    let jsParts := parts.map (fun p => if p = "endl".data then "\"\\n\"".data else p)
    "console.log(".data ++ joinSep ", ".data jsParts ++ ");".data
  else line

/-- `transpileCppToJs` (src/utils/compiler.ts 7-66): the staged textual
rewrite of a C++ source into a runnable script, wrapped in the banner and
guard template. -/
def transpileCppToJs (code : List Char) : List Char :=
  let js1 := rewriteG includeStep code
  let js2 := rewriteG usingStep js1
  let js3 := rewriteG returnZeroStep js2
  let js4 := match findFirstG mainStep js3 with
    | some cap => cap
    | none => js3
  let js5 := rewriteGB longLongStep none js4
  let js6 := rewriteGB kwStep none js5
  let js7 := replaceAllL "std::".data [] js6
  let js8 := rewriteG cinStep js7
  let js9 := joinSep ['\n'] ((splitCh '\n' js8).map coutLineTransform)
  cppWrapPre ++ js9 ++ cppWrapPost

/-! ## The native simulator (`simulateNativeLanguage`, src/utils/compiler.ts 71-100) -/

/-- Case-sensitive suffix test (`String.prototype.endsWith`). -/
def endsWith (suf l : List Char) : Bool := prefixOf suf.reverse l.reverse

/-- Case-insensitive suffix test, for the `/i`-flagged `$`-anchored name
patterns. -/
def endsWithCi (suf l : List Char) : Bool := ciPrefix suf.reverse l.reverse

/-- `/\.(cpp|c|h|hpp)$/i` on the artifact name. -/
def cppFamilyName (nm : List Char) : Bool :=
  endsWithCi ".cpp".data nm || endsWithCi ".c".data nm ||
  endsWithCi ".h".data nm || endsWithCi ".hpp".data nm

/-- One emitted console line of the simulator:
`console.log("${msg.replace(/"/g, '\\"')}");`. -/
def logLine (msg : List Char) : List Char :=
  "console.log(\"".data ++ replaceAllL ['"'] ['\\', '"'] msg ++ "\");".data

/-- A JavaScript quote character (the `['"]` class). -/
def jsQuote (c : Char) : Bool := c = '\x27' || c = '"'

/-- Lazy capture `(.*?)` up to the closing quote `q` followed by `\s*\)`
(the Python `print` pattern): the first `q` from which `\s*\)` succeeds ends
the capture; `.` rejects line terminators. -/
def pyCap (q : Char) : List Char → Option (List Char × List Char)
  | [] => none
  | c :: t =>
    if c = q then
      match eatLit ")".data (eatWs0 t) with
      | some rest => some ([], rest)
      | none =>
        if isLineTerm c then none
        else (pyCap q t).map (fun pr => (c :: pr.1, pr.2))
    else if isLineTerm c then none
    else (pyCap q t).map (fun pr => (c :: pr.1, pr.2))

/-- `/print\s*\(\s*(['"])(.*?)\1\s*\)/g`. -/
def pyStep (s : List Char) : Option (List Char × List Char) :=
  match eatLit "print".data s with
  | none => none
  | some r =>
    match eatLit "(".data (eatWs0 r) with
    | none => none
    | some r2 =>
      match eatWs0 r2 with
      | q :: r3 => if jsQuote q then pyCap q r3 else none
      | [] => none

/-- Common tail `\s*\(\s*"([^"]*)"` with an optional required `\s*\)`
(Java requires the closing parenthesis, Go does not). -/
def quotedArgTail (needParen : Bool) (r : List Char) : Option (List Char × List Char) :=
  match eatLit "(".data (eatWs0 r) with
  | none => none
  | some r2 =>
    match eatLit "\"".data (eatWs0 r2) with
    | none => none
    | some r3 =>
      let cap := r3.takeWhile (fun c => !decide (c = '"'))
      match eatLit "\"".data (r3.drop cap.length) with
      | none => none
      | some r4 =>
        if needParen then
          match eatLit ")".data (eatWs0 r4) with
          | none => none
          | some rest => some (cap, rest)
        else some (cap, r4)

/-- `/System\.out\.print(?:ln)?\s*\(\s*"([^"]*)"\s*\)/g` (the optional `ln`
is tried greedily first, falling back to the bare form). -/
def javaStep (s : List Char) : Option (List Char × List Char) :=
  match eatLit "System.out.print".data s with
  | none => none
  | some r =>
    match eatLit "ln".data r with
    | some r2 =>
      match quotedArgTail true r2 with
      | some cr => some cr
      | none => quotedArgTail true r
    | none => quotedArgTail true r

/-- `/fmt\.P(?:rint|rintln|rintf)\s*\(\s*"([^"]*)"/g` (alternation order as
written). -/
def goStep (s : List Char) : Option (List Char × List Char) :=
  match eatLit "fmt.P".data s with
  | none => none
  | some r =>
    match (eatLit "rint".data r).bind (quotedArgTail false) with
    | some cr => some cr
    | none =>
      match (eatLit "rintln".data r).bind (quotedArgTail false) with
      | some cr => some cr
      | none => (eatLit "rintf".data r).bind (quotedArgTail false)

/-- `simulateNativeLanguage` (src/utils/compiler.ts 71-100). -/
def simulateNativeLanguage (f : GeneratedFile) : List Char :=
  if cppFamilyName f.name.data then transpileCppToJs f.content.data
  else if endsWith ".py".data f.name.data then
    joinSep ['\n'] ((collectG pyStep f.content.data).map logLine)
  else if endsWith ".java".data f.name.data then
    joinSep ['\n'] ((collectG javaStep f.content.data).map logLine)
  else if endsWith ".go".data f.name.data then
    joinSep ['\n'] ((collectG goStep f.content.data).map logLine)
  else
    logLine ("[System] Compiled ".data ++ f.name.data ++ " successfully.".data)

/-! ## Artifact probes of `assemblePreview` (src/utils/compiler.ts 108-124) -/

/-- `files.find(f => f.name.toLowerCase() === 'preview.html')`. -/
def previewHtmlFileOf (files : List GeneratedFile) : Option GeneratedFile :=
  files.find? (fun f => f.name.data.map asciiLower = "preview.html".data)

/-- `files.find(f => f.name.endsWith('.html') && f.name !== 'preview.html')`. -/
def htmlFileOf (files : List GeneratedFile) : Option GeneratedFile :=
  files.find? (fun f => endsWith ".html".data f.name.data && !decide (f.name = "preview.html"))

/-- `files.filter(f => f.name.endsWith('.css'))`. -/
def cssFilesOf (files : List GeneratedFile) : List GeneratedFile :=
  files.filter (fun f => endsWith ".css".data f.name.data)

/-- `f.name.match(/\.(js|jsx|ts|tsx)$/)` (case-sensitive). -/
def isScriptName (nm : List Char) : Bool :=
  endsWith ".js".data nm || endsWith ".jsx".data nm ||
  endsWith ".ts".data nm || endsWith ".tsx".data nm

/-- `files.filter(f => f.name.match(/\.(js|jsx|ts|tsx)$/))`. -/
def jsFilesOf (files : List GeneratedFile) : List GeneratedFile :=
  files.filter (fun f => isScriptName f.name.data)

/-- `/\.(cpp|c|py|java|rs|go|php)$/i` on the artifact name. -/
def isNativeName (nm : List Char) : Bool :=
  endsWithCi ".cpp".data nm || endsWithCi ".c".data nm || endsWithCi ".py".data nm ||
  endsWithCi ".java".data nm || endsWithCi ".rs".data nm || endsWithCi ".go".data nm ||
  endsWithCi ".php".data nm

/-- `files.find(f => f.name.match(/\.(cpp|c|py|java|rs|go|php)$/i))`. -/
def nativeFileOf (files : List GeneratedFile) : Option GeneratedFile :=
  files.find? (fun f => isNativeName f.name.data)

/-- `files.find(f => f.name.endsWith('.liquid'))`. -/
def liquidFileOf (files : List GeneratedFile) : Option GeneratedFile :=
  files.find? (fun f => endsWith ".liquid".data f.name.data)

/-- `!previewHtmlFile && !htmlFile && jsFiles.length === 0 && nativeFile`
(src/utils/compiler.ts 118-120). -/
def isNativeOf (files : List GeneratedFile) : Bool :=
  (previewHtmlFileOf files).isNone && (htmlFileOf files).isNone &&
  (jsFilesOf files).isEmpty && (nativeFileOf files).isSome

/-- The four React import needles of src/utils/compiler.ts 122. -/
def isReactOf (files : List GeneratedFile) : Bool :=
  (jsFilesOf files).any (fun f =>
    strIncludes f.content "import React" || strIncludes f.content "react-dom" ||
    strIncludes f.content "from \"react\"" || strIncludes f.content "from \x27react\x27")

/-- The derived classification of an artifact set: which assembly strategy
`assemblePreview` takes (spec §4.2 `ProjectKind`). -/
inductive ProjectKind where
  | native
  | framework
  | templating
  | plain
deriving DecidableEq

/-- `classify`: the branch structure of `assemblePreview` — the early native
return, the `isReact` branch, the Liquid fallback (taken only when no preview
or markup artifact exists), else plain. -/
def classify (files : List GeneratedFile) : ProjectKind :=
  if isNativeOf files then ProjectKind.native
  else if isReactOf files then ProjectKind.framework
  else if (previewHtmlFileOf files).isNone && (htmlFileOf files).isNone &&
      (liquidFileOf files).isSome then ProjectKind.templating
  else ProjectKind.plain

/-! ## Liquid rendering (src/utils/compiler.ts 207-265) -/

/-- Step for `/{% schema %}[\s\S]*?{% endschema %}/g`. -/
def schemaStep (s : List Char) : Option (List Char × List Char) :=
  match eatLit "\x7b% schema %\x7d".data s with
  | none => none
  | some r =>
    match findSplit "\x7b% endschema %\x7d".data r with
    | some br => some ([], br.2)
    | none => none

/-- First-match capture of `/{% stylesheet %}([\s\S]*?){% endstylesheet %}/`. -/
def styleFindStep (s : List Char) : Option (List Char) :=
  match eatLit "\x7b% stylesheet %\x7d".data s with
  | none => none
  | some r =>
    match findSplit "\x7b% endstylesheet %\x7d".data r with
    | some br => some br.1
    | none => none

/-- Step for `/{% stylesheet %}[\s\S]*?{% endstylesheet %}/g`. -/
def styleStep (s : List Char) : Option (List Char × List Char) :=
  match eatLit "\x7b% stylesheet %\x7d".data s with
  | none => none
  | some r =>
    match findSplit "\x7b% endstylesheet %\x7d".data r with
    | some br => some ([], br.2)
    | none => none

/-- First-match capture of `/{% javascript %}([\s\S]*?){% endjavascript %}/`. -/
def jsBlockFindStep (s : List Char) : Option (List Char) :=
  match eatLit "\x7b% javascript %\x7d".data s with
  | none => none
  | some r =>
    match findSplit "\x7b% endjavascript %\x7d".data r with
    | some br => some br.1
    | none => none

/-- Step for `/{% javascript %}[\s\S]*?{% endjavascript %}/g`. -/
def jsBlockStep (s : List Char) : Option (List Char × List Char) :=
  match eatLit "\x7b% javascript %\x7d".data s with
  | none => none
  | some r =>
    match findSplit "\x7b% endjavascript %\x7d".data r with
    | some br => some ([], br.2)
    | none => none

/-- The greedy `[^}]*` run. -/
def nonBraceRun (s : List Char) : List Char :=
  s.takeWhile (fun c => !decide (c = '\x7d'))

/-- Does a `[^}]*\|\s*img_url` decomposition exist inside a region? -/
def hasPipeImgUrl : List Char → Bool
  | [] => false
  | c :: t =>
    (c = '|' && prefixOf "img_url".data (eatWs0 t)) || hasPipeImgUrl t

/-- Step for `/\{\{\s*section\.settings\.[^}]*img_url[^}]*\}\}/g`: the
bracket-free region after the prefix must contain `img_url` and be followed
by the two closing braces. -/
def imgUrl1Step (s : List Char) : Option (List Char × List Char) :=
  match eatLit "\x7b\x7b".data s with
  | none => none
  | some r =>
    match eatLit "section.settings.".data (eatWs0 r) with
    | none => none
    | some r2 =>
      let reg := nonBraceRun r2
      if hasSub "img_url".data reg && prefixOf "\x7d\x7d".data (r2.drop reg.length) then
        some ("https://placehold.co/600x400?text=Section+Image".data,
          r2.drop (reg.length + 2))
      else none

/-- Step for `/\{\{\s*[^}]*\|\s*img_url[^}]*\}\}/g`. -/
def imgUrl2Step (s : List Char) : Option (List Char × List Char) :=
  match eatLit "\x7b\x7b".data s with
  | none => none
  | some r =>
    let r2 := eatWs0 r
    let reg := nonBraceRun r2
    if hasPipeImgUrl reg && prefixOf "\x7d\x7d".data (r2.drop reg.length) then
      some ("https://placehold.co/600x400?text=Image".data, r2.drop (reg.length + 2))
    else none

/-- Step for `/\{\{\s*section\.settings\.([^}]+)\s*\}\}/g`: the capture is
the whole bracket-free region (the trailing `\s*` never takes anything from a
greedy `[^}]+`). -/
def settingStep (s : List Char) : Option (List Char × List Char) :=
  match eatLit "\x7b\x7b".data s with
  | none => none
  | some r =>
    match eatLit "section.settings.".data (eatWs0 r) with
    | none => none
    | some r2 =>
      let reg := nonBraceRun r2
      if !reg.isEmpty && prefixOf "\x7d\x7d".data (r2.drop reg.length) then
        some ("<span data-liquid=\"".data ++ reg ++ "\">[Setting: ".data ++ reg ++
          "]</span>".data, r2.drop (reg.length + 2))
      else none

/-- Step for `/\{\{\s*([^}]+)\s*\}\}/g`: the greedy leading `\s*` leaves the
capture starting at the first non-whitespace character, backing off to leave
a single whitespace character when the region is all whitespace. -/
def genericVarStep (s : List Char) : Option (List Char × List Char) :=
  match eatLit "\x7b\x7b".data s with
  | none => none
  | some r =>
    let reg := nonBraceRun r
    if reg.isEmpty || !prefixOf "\x7d\x7d".data (r.drop reg.length) then none
    else
      let cap := if (reg.dropWhile jsWs).isEmpty then [reg.getLast!]
        else reg.dropWhile jsWs
      some ("<!-- ".data ++ cap ++ " -->".data, r.drop (reg.length + 2))

/-- Step for `/{%[^%]*%}/g`. -/
def logicStep (s : List Char) : Option (List Char × List Char) :=
  match eatLit "\x7b%".data s with
  | none => none
  | some r =>
    let reg := r.takeWhile (fun c => !decide (c = '%'))
    if prefixOf "%\x7d".data (r.drop reg.length) then
      some ([], r.drop (reg.length + 2))
    else none

/-- The whole Liquid-to-HTML fallback: returns the scaffolded markup and the
stylesheet fragment appended to the aggregate CSS. -/
def liquidAssembled (lf : GeneratedFile) : List Char × List Char :=
  let c1 := rewriteG schemaStep lf.content.data
  let styleCap := findFirstG styleFindStep c1
  let c2 := match styleCap with
    | some _ => rewriteG styleStep c1
    | none => c1
  let cssAdd := match styleCap with
    | some cap => "\n/* Liquid Stylesheet */\n".data ++ cap
    | none => []
  let jsCap := findFirstG jsBlockFindStep c2
  let c3 := match jsCap with
    | some _ => rewriteG jsBlockStep c2
    | none => c2
  let liquidJs := match jsCap with
    | some cap => cap
    | none => []
  let c4 := rewriteG imgUrl1Step c3
  let c5 := rewriteG imgUrl2Step c4
  let c6 := rewriteG settingStep c5
  let c7 := rewriteG genericVarStep c6
  let c8 := rewriteG logicStep c7
  (liquidPre ++ c8 ++ liquidMid ++ liquidJs ++ liquidPost, cssAdd)

/-! ## Scaffold assembly (src/utils/compiler.ts 102-494) -/

/-- `css = cssFiles.map(f => ...).join('\n')` (src/utils/compiler.ts 200). -/
def cssJoined (files : List GeneratedFile) : List Char :=
  joinSep ['\n'] ((cssFilesOf files).map
    (fun f => "/* ".data ++ f.name.data ++ " */\n".data ++ f.content.data))

/-- Base-document selection (src/utils/compiler.ts 203-295): preferred
preview markup, then any markup artifact, then the Liquid fallback, then the
synthesized empty-root shell.  Returns the document and the aggregate CSS
(which the Liquid path extends). -/
def baseHtmlCss (files : List GeneratedFile) : List Char × List Char :=
  let css0 := cssJoined files
  match previewHtmlFileOf files with
  | some f => (f.content.data, css0)
  | none =>
    match htmlFileOf files with
    | some f => (f.content.data, css0)
    | none =>
      match liquidFileOf files with
      | some lf =>
        if isReactOf files then (defaultShellStr, css0)
        else
          let hc := liquidAssembled lf
          (hc.1, css0 ++ hc.2)
      | none => (defaultShellStr, css0)

/-- CSS injection (src/utils/compiler.ts 298-304). -/
def injectCss (html css : List Char) : List Char :=
  if css.isEmpty then html
  else if hasSub "</head>".data html then
    replaceOnce "</head>".data ("<style>".data ++ css ++ "</style></head>".data) html
  else
    replaceOnce "<body>".data
      ("<head><style>".data ++ css ++ "</style></head><body>".data) html

/-- `<script type="importmap">…</script>` with the stringified module map. -/
def importMapScriptStr : List Char :=
  "<script type=\"importmap\">".data ++ importMapJson ++ "</script>".data

/-- The tailwind injection, keyed on the needle already being present. -/
def tailwindScriptOf (html : List Char) : List Char :=
  if !hasSub "cdn.tailwindcss.com".data html then
    "<script src=\"https://cdn.tailwindcss.com\"></script>".data
  else []

/-- Conditional slick-carousel stylesheets (src/utils/compiler.ts 360-364). -/
def externalCssOf (files : List GeneratedFile) : List Char :=
  if (jsFilesOf files).any (fun f => strIncludes f.content "slick") then
    slick1 ++ slick2
  else []

/-- Case-insensitive substring test, for the `/components?\u002f/i` score probe. -/
def ciHasSub (n : List Char) : List Char → Bool
  | [] => ciPrefix n []
  | c :: t => ciPrefix n (c :: t) || ciHasSub n t

/-- The file-ordering score (src/utils/compiler.ts 369-376). -/
def getScore (nm : List Char) : Nat :=
  if endsWithCi "index.js".data nm || endsWithCi "index.jsx".data nm ||
      endsWithCi "index.ts".data nm || endsWithCi "index.tsx".data nm then 100
  else if endsWithCi "main.js".data nm || endsWithCi "main.jsx".data nm ||
      endsWithCi "main.ts".data nm || endsWithCi "main.tsx".data nm then 100
  else if endsWithCi "app.js".data nm || endsWithCi "app.jsx".data nm ||
      endsWithCi "app.ts".data nm || endsWithCi "app.tsx".data nm then 50
  else if ciHasSub "component/".data nm || ciHasSub "components/".data nm then 10
  else 0

/-- Stable insertion of an element after all accumulated elements of
less-or-equal score. -/
def insAfterLe (score : GeneratedFile → Nat) (x : GeneratedFile) :
    List GeneratedFile → List GeneratedFile
  | [] => [x]
  | y :: ys => if score y ≤ score x then y :: insAfterLe score x ys else x :: y :: ys

/-- Stable sort by ascending score: the result of `Array.prototype.sort`
(stable per the language specification) under the comparator
`getScore(a.name) - getScore(b.name)`. -/
def stableSortByScore (score : GeneratedFile → Nat) (l : List GeneratedFile) :
    List GeneratedFile :=
  l.foldl (fun acc x => insAfterLe score x acc) []

/-- `const sortedJs = jsFiles.sort(...)` (src/utils/compiler.ts 368-377). -/
def sortedJsOf (files : List GeneratedFile) : List GeneratedFile :=
  stableSortByScore (fun f => getScore f.name.data) (jsFilesOf files)

/-! ## Framework linking: import stripping and script assembly
(src/utils/compiler.ts 379-459) -/

/-- Lazy `(.*?)` up to either quote character: the capture of the import-path
group; fails at a line terminator. -/
def capToQuote : List Char → Option (List Char × List Char)
  | [] => none
  | c :: t =>
    if jsQuote c then some ([], t)
    else if isLineTerm c then none
    else (capToQuote t).map (fun pr => (c :: pr.1, pr.2))

/-- Tail of the first import pattern at a candidate `from`:
`from\s+['"](.*?)['"];?`.  Returns the captured path and the rest. -/
def fromTail (s : List Char) : Option (List Char × List Char) :=
  match eatLit "from".data s with
  | none => none
  | some r =>
    match eatWs1 r with
    | none => none
    | some r2 =>
      match r2 with
      | q :: r3 =>
        if jsQuote q then
          match capToQuote r3 with
          | some pr =>
            match pr.2 with
            | ';' :: rest => some (pr.1, rest)
            | rest => some (pr.1, rest)
          | none => none
        else none
      | [] => none

/-- Scan of `/import\s+(?:[\s\S]*?)\s+from\s+['"](.*?)['"];?/` after the
leading `import` and its first whitespace character: the earliest `from`
preceded by whitespace (and separated from `import` by at least one
character) that completes the pattern wins.  `prev` is the previous
character and `k` the offset from the end of `import`. -/
def importScan1 : Char → Nat → List Char → Option (List Char × List Char)
  | prev, k, s =>
    match (if 2 ≤ k && jsWs prev then fromTail s else none) with
    | some pr => some pr
    | none =>
      match s with
      | [] => none
      | c :: t => importScan1 c (k + 1) t

/-- One attempt of the first import pattern at the head of `s`; returns the
captured path and the rest after the match. -/
def importStep1 (s : List Char) : Option (List Char × List Char) :=
  match eatLit "import".data s with
  | none => none
  | some r =>
    match r with
    | c :: _ => if jsWs c then importScan1 'i' 0 r else none
    | [] => none

/-- One attempt of `/import\s+['"](.*?)['"];?/` (side-effect imports). -/
def importStep2 (s : List Char) : Option (List Char × List Char) :=
  match eatLit "import".data s with
  | none => none
  | some r =>
    match eatWs1 r with
    | none => none
    | some r2 =>
      match r2 with
      | q :: r3 =>
        if jsQuote q then
          match capToQuote r3 with
          | some pr =>
            match pr.2 with
            | ';' :: rest => some (pr.1, rest)
            | rest => some (pr.1, rest)
          | none => none
        else none
      | [] => none

/-- `path.startsWith('.') || path.startsWith('/')`. -/
def isLocalPath (path : List Char) : Bool :=
  match path with
  | '.' :: _ => true
  | '/' :: _ => true
  | _ => false

/-- `externalImports.add(match)`: insertion-ordered, de-duplicated. -/
def addImport (acc : List (List Char)) (m : List Char) : List (List Char) :=
  if m ∈ acc then acc else acc ++ [m]

/-- One global pass of an import pattern over a content string, removing each
match and adding external matches (the full matched text, verbatim) to the
accumulator. -/
def importGo (step : List Char → Option (List Char × List Char)) :
    Nat → List Char → List (List Char) → List Char × List (List Char)
  | 0, l, acc => (l, acc)
  | _, [], acc => ([], acc)
  | fuel + 1, c :: t, acc =>
    match step (c :: t) with
    | some pr =>
      if pr.2.length < (c :: t).length then
        importGo step fuel pr.2
          (if isLocalPath pr.1 then acc
           else addImport acc ((c :: t).take ((c :: t).length - pr.2.length)))
      else
        ((c :: (importGo step fuel t acc).1), (importGo step fuel t acc).2)
    | none =>
      ((c :: (importGo step fuel t acc).1), (importGo step fuel t acc).2)

def importPass (step : List Char → Option (List Char × List Char))
    (l : List Char) (acc : List (List Char)) : List Char × List (List Char) :=
  importGo step l.length l acc

theorem importGo_nil (step : List Char → Option (List Char × List Char))
    (f : Nat) (acc : List (List Char)) : importGo step f [] acc = ([], acc) := by
  cases f <;> rfl

theorem importGo_congr (step : List Char → Option (List Char × List Char)) :
    ∀ (n : Nat) (l : List Char), l.length ≤ n → ∀ acc f g, l.length ≤ f →
      l.length ≤ g → importGo step f l acc = importGo step g l acc := by
  intro n
  induction n with
  | zero =>
    intro l hl acc f g _ _
    have : l = [] := List.eq_nil_of_length_eq_zero (Nat.le_zero.mp hl)
    subst this
    rw [importGo_nil, importGo_nil]
  | succ n ih =>
    intro l hl acc f g hf hg
    cases l with
    | nil => rw [importGo_nil, importGo_nil]
    | cons c t =>
      cases f with
      | zero => simp at hf
      | succ f' =>
        cases g with
        | zero => simp at hg
        | succ g' =>
          simp only [importGo]
          cases hstep : step (c :: t) with
          | none =>
            show (c :: (importGo step f' t acc).1, (importGo step f' t acc).2) =
              (c :: (importGo step g' t acc).1, (importGo step g' t acc).2)
            rw [ih t (by simp at hl ⊢; omega) acc f' g' (by simp at hf ⊢; omega)
              (by simp at hg ⊢; omega)]
          | some pr =>
            show (if pr.2.length < (c :: t).length then _ else _) =
              (if pr.2.length < (c :: t).length then _ else _)
            split
            · rename_i hlt
              have hlt2 : pr.2.length < t.length + 1 := by simpa using hlt
              rw [ih pr.2 (by simp at hl ⊢; omega) _ f' g' (by simp at hf ⊢; omega)
                (by simp at hg ⊢; omega)]
            · rw [ih t (by simp at hl ⊢; omega) acc f' g' (by simp at hf ⊢; omega)
                (by simp at hg ⊢; omega)]

theorem importPass_cons (step : List Char → Option (List Char × List Char))
    (c : Char) (t : List Char) (acc : List (List Char)) :
    importPass step (c :: t) acc =
      match step (c :: t) with
      | some pr =>
        if pr.2.length < (c :: t).length then
          importPass step pr.2
            (if isLocalPath pr.1 then acc
             else addImport acc ((c :: t).take ((c :: t).length - pr.2.length)))
        else
          ((c :: (importPass step t acc).1), (importPass step t acc).2)
      | none =>
        ((c :: (importPass step t acc).1), (importPass step t acc).2) := by
  show importGo step (t.length + 1) (c :: t) acc = _
  simp only [importGo]
  cases hstep : step (c :: t) with
  | none =>
    show (c :: (importGo step t.length t acc).1, (importGo step t.length t acc).2) =
      (c :: (importPass step t acc).1, (importPass step t acc).2)
    rfl
  | some pr =>
    show (if pr.2.length < (c :: t).length then _ else _) =
      (if pr.2.length < (c :: t).length then _ else _)
    split
    · rename_i hlt
      have hlt2 : pr.2.length < t.length + 1 := by simpa using hlt
      show importGo step t.length pr.2 _ = _
      rw [importGo_congr step pr.2.length pr.2 (Nat.le_refl _) _ _ _ (by omega)
        (Nat.le_refl _)]
      rfl
    · rfl

/-- Step for `/export\s+default\s+/g`. -/
def exportDefaultStep (s : List Char) : Option (List Char × List Char) :=
  match eatLit "export".data s with
  | none => none
  | some r =>
    match eatWs1 r with
    | none => none
    | some r2 =>
      match eatLit "default".data r2 with
      | none => none
      | some r3 =>
        match eatWs1 r3 with
        | none => none
        | some rest => some ([], rest)

/-- Step for `/export\s+/g`. -/
def exportStep (s : List Char) : Option (List Char × List Char) :=
  match eatLit "export".data s with
  | none => none
  | some r =>
    match eatWs1 r with
    | none => none
    | some rest => some ([], rest)

/-- The per-artifact rewrite of the linker (src/utils/compiler.ts 383-422):
both import passes threading the shared accumulator, then the export strips. -/
def processContentJs (content : List Char) (acc : List (List Char)) :
    List Char × List (List Char) :=
  let p1 := importPass importStep1 content acc
  let p2 := importPass importStep2 p1.1 p1.2
  (rewriteG exportStep (rewriteG exportDefaultStep p2.1), p2.2)

/-- Map the rewrite over the sorted artifacts, prefixing each with its
provenance comment, threading the import accumulator. -/
def processAllJs : List GeneratedFile → List (List Char) →
    List (List Char) × List (List Char)
  | [], acc => ([], acc)
  | f :: fs, acc =>
    let ca := processContentJs f.content.data acc
    let part := "// --- ".data ++ f.name.data ++ " ---\n".data ++ ca.1
    let rest := processAllJs fs ca.2
    (part :: rest.1, rest.2)

/-- `processedJsParts` for an artifact set. -/
def processedJsPartsOf (files : List GeneratedFile) : List (List Char) :=
  (processAllJs (sortedJsOf files) []).1

/-- The final contents of the `externalImports` set, in insertion order. -/
def externalImportsOf (files : List GeneratedFile) : List (List Char) :=
  (processAllJs (sortedJsOf files) []).2

/-- `entryPointExists`: some artifact already mounts the application
(src/utils/compiler.ts 387-389, tested on the raw artifact contents). -/
def entryPointExistsOf (files : List GeneratedFile) : Bool :=
  (sortedJsOf files).any (fun f =>
    strIncludes f.content "createRoot" || strIncludes f.content "ReactDOM.render")

/-- The synthesized mount script (src/utils/compiler.ts 433-442): emitted
only when no artifact mounts explicitly and some rewritten part mentions an
`App` binding. -/
def mountScriptOf (files : List GeneratedFile) : List Char :=
  if !entryPointExistsOf files &&
      (processedJsPartsOf files).any (fun p =>
        hasSub "function App".data p || hasSub "class App".data p ||
        hasSub "const App".data p) then
    mountScriptStr
  else []

/-- `combinedImports = Array.from(externalImports).join('\n')`. -/
def combinedImportsOf (files : List GeneratedFile) : List Char :=
  joinSep ['\n'] (externalImportsOf files)

/-- The `appScript` template (src/utils/compiler.ts 444-459) instantiated. -/
def appScriptOf (files : List GeneratedFile) : List Char :=
  appPre ++ combinedImportsOf files ++ appA ++ processShimStr ++ appB ++
  joinSep "\n\n".data (processedJsPartsOf files) ++ appC ++
  mountScriptOf files ++ appPost

/-- `headScripts` (src/utils/compiler.ts 461). -/
def headScriptsOf (files : List GeneratedFile) (html : List Char) : List Char :=
  consoleHookStr ++ ['\n'] ++ tailwindScriptOf html ++ ['\n'] ++
  importMapScriptStr ++ ['\n'] ++ externalCssOf files

/-- The React branch of the assembly (src/utils/compiler.ts 307-473). -/
def reactApply (files : List GeneratedFile) (html : List Char) : List Char :=
  let hs := headScriptsOf files html
  let h1 :=
    if hasSub "</head>".data html then
      replaceOnce "</head>".data (hs ++ "\n</head>".data) html
    else "<head>".data ++ hs ++ "</head>".data ++ html
  let bs := babelScriptStr ++ ['\n'] ++ appScriptOf files
  if hasSub "</body>".data h1 then
    replaceOnce "</body>".data (bs ++ "\n</body>".data) h1
  else h1 ++ bs

/-- The vanilla branch of the assembly (src/utils/compiler.ts 475-491). -/
def vanillaApply (files : List GeneratedFile) (html : List Char) : List Char :=
  let h1 :=
    if hasSub "<head>".data html then
      replaceOnce "<head>".data ("<head>".data ++ consoleHookStr) html
    else consoleHookStr ++ html
  if (jsFilesOf files).isEmpty then h1
  else
    let sc := joinSep ['\n'] ((jsFilesOf files).map (fun f => f.content.data))
    if hasSub "</body>".data h1 then
      replaceOnce "</body>".data ("<script>".data ++ sc ++ "</script></body>".data) h1
    else h1 ++ "<script>".data ++ sc ++ "</script>".data

/-- The native-simulation document (src/utils/compiler.ts 179-197). -/
def nativeShellOf (nf : GeneratedFile) : List Char :=
  nativePre ++ consoleHookStr ++ nativeMid ++ simulateNativeLanguage nf ++ nativePost

/-- The non-native paths of `assemblePreview`: base document, CSS injection,
then the React or vanilla script assembly. -/
def mainAssemble (files : List GeneratedFile) : List Char :=
  let hc := baseHtmlCss files
  let html1 := injectCss hc.1 hc.2
  if isReactOf files then reactApply files html1 else vanillaApply files html1

/-- `assemblePreview` (src/utils/compiler.ts 102-494). -/
def assemblePreview (files : List GeneratedFile) : String :=
  match nativeFileOf files with
  | some nf =>
    if isNativeOf files then String.mk (nativeShellOf nf)
    else String.mk (mainAssemble files)
  | none => String.mk (mainAssemble files)

/-! ## Core facts about `prefixOf`, `countOcc` and the scanners -/

theorem prefixOf_append {n s : List Char} (t : List Char)
    (h : prefixOf n s = true) : prefixOf n (s ++ t) = true := by
  induction n generalizing s with
  | nil => simp [prefixOf]
  | cons a as ih =>
    cases s with
    | nil => simp [prefixOf] at h
    | cons b bs =>
      simp only [prefixOf, List.cons_append] at h ⊢
      split at h
      · rename_i he
        simpa [he] using ih h
      · exact absurd h (by simp)

theorem prefixOf_self_append (n t : List Char) : prefixOf n (n ++ t) = true := by
  induction n with
  | nil => simp [prefixOf]
  | cons a as ih => simpa [prefixOf] using ih

theorem prefixOf_of_append_le {n s t : List Char}
    (h : prefixOf n (s ++ t) = true) (hle : n.length ≤ s.length) :
    prefixOf n s = true := by
  induction n generalizing s with
  | nil => simp [prefixOf]
  | cons a as ih =>
    cases s with
    | nil => simp at hle
    | cons b bs =>
      simp only [prefixOf, List.cons_append] at h ⊢
      split at h
      · rename_i he
        simp only [he, if_true]
        exact ih h (by simpa using hle)
      · exact absurd h (by simp)

theorem prefixOf_trans {m n s : List Char}
    (h1 : prefixOf m n = true) (h2 : prefixOf n s = true) :
    prefixOf m s = true := by
  induction m generalizing n s with
  | nil => simp [prefixOf]
  | cons a as ih =>
    cases n with
    | nil => simp [prefixOf] at h1
    | cons b bs =>
      cases s with
      | nil => simp [prefixOf] at h2
      | cons c cs =>
        simp only [prefixOf] at h1 h2 ⊢
        split at h1
        · split at h2
          · rename_i e1 e2
            simp only [e1, e2, if_true]
            exact ih h1 h2
          · exact absurd h2 (by simp)
        · exact absurd h1 (by simp)

theorem prefixOf_split {n a b : List Char}
    (h : prefixOf n (a ++ b) = true) (hle : a.length ≤ n.length) :
    a = n.take a.length ∧ prefixOf (n.drop a.length) b = true := by
  induction a generalizing n with
  | nil => simpa using h
  | cons x xs ih =>
    cases n with
    | nil => simp at hle
    | cons c cs =>
      simp only [prefixOf, List.cons_append] at h
      split at h
      · rename_i he
        obtain ⟨h1, h2⟩ := ih h (by simpa using hle)
        refine ⟨?_, ?_⟩
        · simp [List.take, ← he, ← h1]
        · simpa using h2
      · exact absurd h (by simp)

theorem prefixOf_cons_ne {n a b : List Char} {c : Char} (hc : c ∉ n) :
    prefixOf n (a ++ c :: b) = prefixOf n a := by
  by_cases ha : prefixOf n a = true
  · rw [ha, prefixOf_append _ ha]
  · rw [Bool.eq_false_iff.mpr ha]
    by_cases hlen : n.length ≤ a.length
    · by_contra hcontra
      simp only [Bool.not_eq_false] at hcontra
      exact ha (prefixOf_of_append_le hcontra hlen)
    · by_contra hcontra
      simp only [Bool.not_eq_false] at hcontra
      push_neg at hlen
      have := (prefixOf_split hcontra (Nat.le_of_lt hlen)).2
      have hd : n.drop a.length ≠ [] := by
        intro he
        have := List.length_drop a.length n
        rw [he] at this
        simp at this
        omega
      cases hnd : n.drop a.length with
      | nil => exact hd hnd
      | cons y ys =>
        rw [hnd] at this
        simp only [prefixOf] at this
        split at this
        · rename_i he
          have : y ∈ n.drop a.length := by simp [hnd]
          exact hc (he ▸ List.mem_of_mem_drop this)
        · exact absurd this (by simp)

theorem countOcc_append_cons {n a b : List Char} {c : Char} (hc : c ∉ n) :
    countOcc n (a ++ c :: b) = countOcc n a + countOcc n b := by
  induction a with
  | nil =>
    have hpe : prefixOf n (c :: b) = prefixOf n ([] : List Char) := by
      simpa using prefixOf_cons_ne (a := []) (b := b) hc
    simp only [List.nil_append, countOcc, hpe]
  | cons x xs ih =>
    have hpe : prefixOf n ((x :: xs) ++ c :: b) = prefixOf n (x :: xs) :=
      prefixOf_cons_ne (a := x :: xs) (b := b) hc
    simp only [List.cons_append] at hpe
    simp only [List.cons_append, countOcc, List.append_eq, hpe, ih]
    omega

theorem countOcc_nil_of_ne {n : List Char} (hn : n ≠ []) : countOcc n [] = 0 := by
  simp only [countOcc]
  cases n with
  | nil => exact absurd rfl hn
  | cons x xs => simp [prefixOf]

theorem countOcc_cons_zero {n : List Char} {c : Char} {t : List Char}
    (h : countOcc n (c :: t) = 0) :
    prefixOf n (c :: t) = false ∧ countOcc n t = 0 := by
  simp only [countOcc] at h
  by_cases hp : prefixOf n (c :: t) = true
  · rw [hp] at h
    simp at h
  · rw [if_neg hp] at h
    exact ⟨by simpa using hp, by omega⟩

theorem countOcc_zero_drop {n s : List Char} (h : countOcc n s = 0) :
    ∀ i, prefixOf n (s.drop i) = false := by
  induction s with
  | nil =>
    intro i
    simp only [List.drop_nil]
    simp only [countOcc] at h
    split at h
    · simp at h
    · rename_i hp
      simpa using hp
  | cons c t ih =>
    intro i
    cases i with
    | zero => exact (countOcc_cons_zero h).1
    | succ j => simpa using ih (countOcc_cons_zero h).2 j

theorem countOcc_pos_of_prefix {n s : List Char} (hs : s ≠ [])
    (h : prefixOf n s = true) : countOcc n s ≠ 0 := by
  cases s with
  | nil => exact absurd rfl hs
  | cons c t =>
    simp [countOcc, h]

theorem countOcc_mono_zero {m n s : List Char} (hmn : prefixOf m n = true)
    (h : countOcc m s = 0) : countOcc n s = 0 := by
  induction s with
  | nil =>
    simp only [countOcc] at h ⊢
    split at h
    · simp at h
    · rename_i hp
      split
      · rename_i hq
        cases n with
        | nil =>
          cases m with
          | nil => simp [prefixOf] at hp
          | cons a as => simp [prefixOf] at hmn
        | cons b bs => simp [prefixOf] at hq
      · rfl
  | cons c t ih =>
    obtain ⟨h1, h2⟩ := countOcc_cons_zero h
    simp only [countOcc]
    have hn : prefixOf n (c :: t) = false := by
      by_contra hb
      simp only [Bool.not_eq_false] at hb
      rw [prefixOf_trans hmn hb] at h1
      cases h1
    rw [hn, ih h2]
    simp

theorem countOcc_left_le (n a b : List Char) :
    countOcc n a ≤ countOcc n (a ++ b) := by
  induction a with
  | nil =>
    simp only [List.nil_append, countOcc]
    cases n with
    | nil =>
      induction b with
      | nil => simp [countOcc]
      | cons c t ihb => simp only [countOcc, prefixOf]; omega
    | cons x xs =>
      simp [prefixOf]
  | cons c t ih =>
    show (if prefixOf n (c :: t) = true then 1 else 0) + countOcc n t ≤
        (if prefixOf n (c :: (t ++ b)) = true then 1 else 0) + countOcc n (t ++ b)
    have hmono : (if prefixOf n (c :: t) = true then 1 else 0) ≤
        (if prefixOf n (c :: (t ++ b)) = true then 1 else 0) := by
      split
      · rename_i hp
        have := prefixOf_append (s := c :: t) b hp
        simp only [List.cons_append] at this
        simp [this]
      · simp
    omega

theorem countOcc_right_le (n a b : List Char) :
    countOcc n b ≤ countOcc n (a ++ b) := by
  induction a with
  | nil => simp
  | cons c t ih =>
    show countOcc n b ≤
        (if prefixOf n (c :: (t ++ b)) = true then 1 else 0) + countOcc n (t ++ b)
    omega

theorem hasSub_iff_countOcc {n s : List Char} :
    hasSub n s = false ↔ countOcc n s = 0 := by
  induction s with
  | nil =>
    simp only [hasSub, countOcc]
    constructor
    · intro h
      simp [h]
    · intro h
      split at h
      · simp at h
      · rename_i hp
        simpa using hp
  | cons c t ih =>
    simp only [hasSub, countOcc, Bool.or_eq_false_iff]
    constructor
    · rintro ⟨h1, h2⟩
      rw [h1, ih.mp h2]
      simp
    · intro h
      have h1 : prefixOf n (c :: t) = false := by
        by_contra hb
        simp only [Bool.not_eq_false] at hb
        rw [hb] at h
        simp at h
      rw [h1] at h
      simp only [Bool.false_eq_true, if_false, Nat.zero_add] at h
      exact ⟨h1, ih.mpr h⟩

/-- No occurrence of a marker `w` can start strictly inside `p` and continue
into a following exact copy of `w`, when `w` does not occur inside `p` and
has no self-overlap. -/
theorem no_cross_prefix {w p r : List Char}
    (hw : ∀ d, d < w.length → 0 < d → prefixOf (w.drop d) w = false)
    (hp : countOcc w p = 0) (hpne : p ≠ []) :
    prefixOf w (p ++ (w ++ r)) = false := by
  by_contra hb
  simp only [Bool.not_eq_false] at hb
  by_cases hlen : w.length ≤ p.length
  · exact countOcc_pos_of_prefix hpne (prefixOf_of_append_le hb hlen) hp
  · push_neg at hlen
    have hsplit := (prefixOf_split hb (Nat.le_of_lt hlen)).2
    have h2 : prefixOf (w.drop p.length) w = true :=
      prefixOf_of_append_le hsplit (by simp [List.length_drop])
    have hp0 : 0 < p.length := by
      cases p with
      | nil => exact absurd rfl hpne
      | cons x xs => simp
    rw [hw p.length hlen hp0] at h2
    cases h2

/-! ## Scanner lemmas: passing over prose and matching serialized blocks -/

theorem selfOverlap_startColon :
    ∀ d, d < 14 → 0 < d → prefixOf (startColon.drop d) startColon = false := by
  decide

theorem selfOverlap_startMk :
    ∀ d, d < 13 → 0 < d → prefixOf (startMk.drop d) startMk = false := by
  decide

/-- The primary scan ignores a prose prefix that contains no opening marker. -/
theorem parseLoopC_skip {p r : List Char} (hp : countOcc startMk p = 0) :
    parseLoopC (p ++ (startColon ++ r)) = parseLoopC (startColon ++ r) := by
  induction p with
  | nil => simp
  | cons c t ih =>
    have hcolon : countOcc startColon (c :: t) = 0 :=
      countOcc_mono_zero (by decide) hp
    have hfalse : prefixOf startColon ((c :: t) ++ (startColon ++ r)) = false := by
      have h14 : startColon.length = 14 := by decide
      exact no_cross_prefix (by rw [h14]; exact selfOverlap_startColon) hcolon (by simp)
    have hnone : tryDelimMatch (c :: (t ++ (startColon ++ r))) = none := by
      rw [tryDelimMatch]
      simp only [List.cons_append] at hfalse
      rw [hfalse]
      simp
    rw [List.cons_append, parseLoopC_cons, hnone]
    exact ih (countOcc_cons_zero hp).2

/-- The primary scan yields nothing on marker-free text. -/
theorem parseLoopC_empty {p : List Char} (hp : countOcc startColon p = 0) :
    parseLoopC p = [] := by
  induction p with
  | nil => rfl
  | cons c t ih =>
    have h1 := (countOcc_cons_zero hp).1
    have hnone : tryDelimMatch (c :: t) = none := by
      rw [tryDelimMatch, h1]
      simp
    rw [parseLoopC_cons, hnone]
    exact ih (countOcc_cons_zero hp).2

/-- `findSplit` finds the exact decomposition when the pattern occurs nowhere
earlier. -/
theorem findSplit_exact {pat X Y : List Char}
    (h : ∀ i, i < X.length → prefixOf pat ((X ++ (pat ++ Y)).drop i) = false) :
    findSplit pat (X ++ (pat ++ Y)) = some (X, Y) := by
  induction X with
  | nil =>
    simp only [List.nil_append]
    cases pat with
    | nil =>
      cases Y with
      | nil => rfl
      | cons c t =>
        simp [findSplit, prefixOf]
    | cons a as =>
      have hpre : prefixOf (a :: as) ((a :: as) ++ Y) = true :=
        prefixOf_self_append _ _
      simp only [List.cons_append] at hpre
      have hdl : List.drop (a :: as).length ((a :: as) ++ Y) = Y := List.drop_left _ _
      simp only [List.cons_append] at hdl
      rw [List.cons_append, findSplit, if_pos hpre, hdl]
  | cons x xs ih =>
    have h0 : prefixOf pat (x :: (xs ++ (pat ++ Y))) = false := by
      have := h 0 (by simp)
      simpa using this
    rw [List.cons_append, findSplit, if_neg (by simp [h0])]
    have ihh : findSplit pat (xs ++ (pat ++ Y)) = some (xs, Y) := by
      apply ih
      intro i hi
      have := h (i + 1) (by simp; omega)
      simpa using this
    rw [ihh]

/-- The closing-marker search of both delimiter scans lands exactly on the
serialized closing marker, when the preceding text contains no occurrence and
ends with a newline (the marker contains none). -/
theorem findSplit_endMk {Z Y : List Char} (hz : countOcc endMk Z = 0)
    (hlast : Z.getLast? = some '\n') :
    findSplit endMk (Z ++ (endMk ++ Y)) = some (Z, Y) := by
  apply findSplit_exact
  intro i hi
  have hdrop : (Z ++ (endMk ++ Y)).drop i = Z.drop i ++ (endMk ++ Y) :=
    List.drop_append_of_le_length (Nat.le_of_lt hi)
  rw [hdrop]
  by_contra hb
  simp only [Bool.not_eq_false] at hb
  by_cases hlen : endMk.length ≤ (Z.drop i).length
  · have := prefixOf_of_append_le hb hlen
    rw [countOcc_zero_drop hz i] at this
    cases this
  · push_neg at hlen
    have hsplit := (prefixOf_split hb (Nat.le_of_lt hlen)).1
    have hlast2 : (Z.drop i).getLast? = some '\n' := by
      rw [List.getLast?_drop]
      simp only [if_neg (by omega : ¬Z.length ≤ i)]
      exact hlast
    rw [hsplit] at hlast2
    have hmem : '\n' ∈ endMk.take (Z.drop i).length :=
      List.mem_of_mem_getLast? hlast2
    have : '\n' ∈ endMk := List.take_subset _ _ hmem
    revert this
    decide

theorem jsWs_of_lineTerm {c : Char} (h : isLineTerm c = true) : jsWs c = true := by
  simp only [isLineTerm, Bool.or_eq_true, decide_eq_true_eq] at h
  rcases h with ((h | h) | h) | h <;> subst h <;> decide

/-- `scanName` walks through a whitespace-and-asterisk-free filename and
stops at the closing asterisks. -/
theorem scanName_through {n : List Char} (acc t : List Char)
    (hn : ∀ c ∈ n, jsWs c = false ∧ c ≠ '*') :
    scanName acc (n ++ '*' :: '*' :: '*' :: t) = some (acc.reverse ++ n, t) := by
  induction n generalizing acc with
  | nil =>
    simp only [List.nil_append]
    rw [scanName]
    have hstar : jsWs '*' = false := by decide
    have hdw : List.dropWhile jsWs ('*' :: '*' :: '*' :: t) = '*' :: '*' :: '*' :: t := by
      simp [List.dropWhile, hstar]
    rw [hdw]
    rw [if_pos (by simp [stars3, prefixOf])]
    simp [stars3]
  | cons c n' ih =>
    have hc := hn c (by simp)
    simp only [List.cons_append]
    rw [scanName]
    have hdw : List.dropWhile jsWs (c :: (n' ++ '*' :: '*' :: '*' :: t)) =
        c :: (n' ++ '*' :: '*' :: '*' :: t) := by
      simp [List.dropWhile, hc.1]
    rw [hdw]
    have hnp : prefixOf stars3 (c :: (n' ++ '*' :: '*' :: '*' :: t)) = false := by
      have : stars3 = '*' :: '*' :: '*' :: [] := by decide
      rw [this]
      simp only [prefixOf]
      rw [if_neg]
      intro he
      exact hc.2 he.symm
    rw [if_neg (by simp [hnp])]
    have hlt : isLineTerm c = false := by
      cases hq : isLineTerm c
      · rfl
      · exact absurd hc.1 (by simp [jsWs_of_lineTerm hq])
    rw [if_neg (by simp [hlt])]
    rw [ih (c :: acc) (fun x hx => hn x (by simp [hx]))]
    simp

/-! ## Well-formed delimited texts: a serializer and its round trip -/

/-- One well-formed delimited block in the external format of spec §6:
opening marker with filename, raw body on its own lines, closing marker. -/
def blockText (n b : List Char) : List Char :=
  "***FILE_START: ".data ++ n ++ "***\n".data ++ b ++ "\n***FILE_END***".data

/-- A text made of interleaved prose and well-formed blocks: leading prose,
then for each item `(name, body, trailing prose)` one block followed by its
prose. -/
def serialize : List Char → List (List Char × List Char × List Char) → List Char
  | p0, [] => p0
  | p0, itm :: rest => p0 ++ (blockText itm.1 itm.2.1 ++ serialize itm.2.2 rest)

/-- The prose part of a serialized text. -/
def concatProse (items : List (List Char × List Char × List Char)) : List Char :=
  (items.map (fun it => it.2.2)).flatten

/-- A name is plain (no whitespace, no asterisks), a body avoids the closing
marker, a prose piece avoids the opening marker. -/
def wfItems (items : List (List Char × List Char × List Char)) : Prop :=
  ∀ it ∈ items, (∀ c ∈ it.1, jsWs c = false ∧ c ≠ '*') ∧
    hasSub "***FILE_END".data it.2.1 = false ∧ hasSub startMk it.2.2 = false

theorem blockText_shape (n b s : List Char) :
    blockText n b ++ s = startColon ++ (' ' ::
      (n ++ '*' :: '*' :: '*' :: ('\n' :: (b ++ ('\n' :: (endMk ++ s)))))) := by
  simp [blockText, startColon, endMk, List.append_assoc]

theorem blockText_shape2 (n b s : List Char) :
    blockText n b ++ s = startMk ++
      ((':' :: ' ' :: (n ++ ['*', '*', '*'] ++ '\n' :: (b ++ ['\n']))) ++
        (endMk ++ s)) := by
  rw [blockText_shape]
  rw [show startColon = startMk ++ [':'] from by decide]
  simp [List.append_assoc]

theorem countOcc_append_head {c0 : Char} {n' l t : List Char}
    (hl : ∀ x ∈ l, x ≠ c0) (ht : countOcc (c0 :: n') t = 0) :
    countOcc (c0 :: n') (l ++ t) = 0 := by
  induction l with
  | nil => simpa using ht
  | cons x xs ih =>
    have hx : x ≠ c0 := hl x (by simp)
    have hp : prefixOf (c0 :: n') (x :: (xs ++ t)) = false := by
      simp only [prefixOf]
      rw [if_neg (fun he => hx he.symm)]
    simp only [List.cons_append, countOcc, List.append_eq, hp]
    simp only [Bool.false_eq_true, if_false, Nat.zero_add]
    exact ih (fun y hy => hl y (by simp [hy]))

/-- No occurrence of the closing marker inside the serialized middle part
(`: name***\n body \n`) of a block. -/
theorem countOcc_endMk_mid {n b : List Char}
    (hn : ∀ c ∈ n, c ≠ '*') (hb : countOcc endMk b = 0) :
    countOcc endMk ((':' :: ' ' :: (n ++ ['*', '*', '*'] ++ '\n' :: (b ++ ['\n'])))) = 0 := by
  have hshape : (':' :: ' ' :: (n ++ ['*', '*', '*'] ++ '\n' :: (b ++ ['\n']))) =
      (':' :: ' ' :: (n ++ ['*', '*', '*'])) ++ '\n' :: (b ++ ['\n']) := by
    simp [List.append_assoc]
  rw [hshape]
  have hnl : '\n' ∉ endMk := by decide
  rw [countOcc_append_cons hnl]
  have h1 : countOcc endMk (':' :: ' ' :: (n ++ ['*', '*', '*'])) = 0 := by
    have hcons : endMk = '*' :: "**FILE_END***".data := by decide
    rw [hcons]
    have : (':' :: ' ' :: (n ++ ['*', '*', '*'])) =
        (':' :: ' ' :: n) ++ ['*', '*', '*'] := by simp
    rw [this]
    apply countOcc_append_head
    · intro x hx
      simp only [List.mem_cons] at hx
      rcases hx with h | h | h
      · subst h; decide
      · subst h; decide
      · exact hn x h
    · rw [← hcons]
      decide
  have h2 : countOcc endMk (b ++ ['\n']) = 0 := by
    have : (b ++ ['\n']) = b ++ '\n' :: [] := rfl
    rw [this, countOcc_append_cons hnl, hb, countOcc_nil_of_ne (by decide)]
  rw [h1, h2]

/-- The body part `\n body \n` of a block contains no closing marker. -/
theorem countOcc_endMk_body {b : List Char} (hb : countOcc endMk b = 0) :
    countOcc endMk ('\n' :: (b ++ ['\n'])) = 0 := by
  have hnl : '\n' ∉ endMk := by decide
  have h1 : countOcc endMk ([] ++ '\n' :: (b ++ '\n' :: [])) =
      countOcc endMk [] + countOcc endMk (b ++ '\n' :: []) := countOcc_append_cons hnl
  have h2 : countOcc endMk (b ++ '\n' :: []) =
      countOcc endMk b + countOcc endMk [] := countOcc_append_cons hnl
  have h3 : countOcc endMk [] = 0 := countOcc_nil_of_ne (by decide)
  simp only [List.nil_append] at h1
  rw [show ('\n' :: (b ++ ['\n'])) = '\n' :: (b ++ '\n' :: []) from rfl, h1, h2]
  omega

/-- `dropWhile` does not enter a whitespace-free list followed by an
asterisk. -/
theorem dropWhile_plain {l t : List Char} (h : ∀ c ∈ l, jsWs c = false) :
    List.dropWhile jsWs (l ++ '*' :: t) = l ++ '*' :: t := by
  cases l with
  | nil =>
    have : jsWs '*' = false := by decide
    simp [List.dropWhile, this]
  | cons c cs =>
    have := h c (by simp)
    simp [List.dropWhile, this]

/-- One well-formed block at the head of the text produces exactly its
artifact and resumes right after the closing marker. -/
theorem tryDelimMatch_block {n b : List Char} (s : List Char)
    (hn : ∀ c ∈ n, jsWs c = false ∧ c ≠ '*')
    (hb : hasSub "***FILE_END".data b = false) :
    tryDelimMatch (blockText n b ++ s) =
      some (mkParsedFile n ('\n' :: (b ++ ['\n'])), s) := by
  rw [blockText_shape]
  rw [tryDelimMatch]
  rw [if_pos (prefixOf_self_append _ _)]
  have hdrop : (startColon ++ (' ' ::
      (n ++ '*' :: '*' :: '*' :: ('\n' :: (b ++ ('\n' :: (endMk ++ s))))))).drop 14 =
      ' ' :: (n ++ '*' :: '*' :: '*' :: ('\n' :: (b ++ ('\n' :: (endMk ++ s))))) := by
    have h14 : (14 : Nat) = startColon.length := by decide
    rw [h14, List.drop_left]
  rw [hdrop]
  have hws : jsWs ' ' = true := by decide
  have hdw : List.dropWhile jsWs (' ' ::
      (n ++ '*' :: '*' :: '*' :: ('\n' :: (b ++ ('\n' :: (endMk ++ s)))))) =
      n ++ '*' :: '*' :: '*' :: ('\n' :: (b ++ ('\n' :: (endMk ++ s)))) := by
    simp only [List.dropWhile, hws]
    exact dropWhile_plain (fun c hc => (hn c hc).1)
  rw [hdw]
  rw [scanName_through [] _ hn]
  have hbz : countOcc endMk b = 0 :=
    countOcc_mono_zero (by decide : prefixOf "***FILE_END".data endMk = true)
      (hasSub_iff_countOcc.mp hb)
  have hsplit : findSplit endMk ('\n' :: (b ++ ('\n' :: (endMk ++ s)))) =
      some ('\n' :: (b ++ ['\n']), s) := by
    have hshape : ('\n' :: (b ++ ('\n' :: (endMk ++ s)))) =
        ('\n' :: (b ++ ['\n'])) ++ (endMk ++ s) := by
      simp [List.append_assoc]
    rw [hshape]
    apply findSplit_endMk (countOcc_endMk_body hbz)
    rw [show ('\n' :: (b ++ ['\n'])) = ('\n' :: b) ++ ['\n'] from by simp]
    exact List.getLast?_concat _
  show (match findSplit endMk ('\n' :: (b ++ ('\n' :: (endMk ++ s)))) with
    | none => none
    | some (body, rest) => some (mkParsedFile ([].reverse ++ n) body, rest)) =
    some (mkParsedFile n ('\n' :: (b ++ ['\n'])), s)
  rw [hsplit]
  rfl

theorem blockText_ne_nil (n b : List Char) : blockText n b ≠ [] := by
  intro h
  have := congrArg List.length h
  simp [blockText] at this

/-- The primary scan over one block: emit its artifact, continue after it. -/
theorem parseLoopC_block {n b : List Char} (s : List Char)
    (hn : ∀ c ∈ n, jsWs c = false ∧ c ≠ '*')
    (hb : hasSub "***FILE_END".data b = false) :
    parseLoopC (blockText n b ++ s) =
      mkParsedFile n ('\n' :: (b ++ ['\n'])) :: parseLoopC s := by
  have hmatch := tryDelimMatch_block s hn hb
  cases hx : blockText n b ++ s with
  | nil =>
    exact absurd (List.append_eq_nil.mp hx).1 (blockText_ne_nil n b)
  | cons c t =>
    rw [hx] at hmatch
    rw [parseLoopC_cons, hmatch]

/-- The round trip of the primary extraction over any serialized text. -/
theorem parseLoopC_serialize (items : List (List Char × List Char × List Char))
    (p0 : List Char) (hp0 : hasSub startMk p0 = false) (hits : wfItems items) :
    parseLoopC (serialize p0 items) =
      items.map (fun it => mkParsedFile it.1 ('\n' :: (it.2.1 ++ ['\n']))) := by
  induction items generalizing p0 with
  | nil =>
    apply parseLoopC_empty
    exact countOcc_mono_zero (by decide : prefixOf startMk startColon = true)
      (hasSub_iff_countOcc.mp hp0)
  | cons it rest ih =>
    obtain ⟨hn, hb, hpr⟩ := hits it (by simp)
    rw [serialize]
    rw [blockText_shape it.1 it.2.1 (serialize it.2.2 rest)]
    rw [parseLoopC_skip (hasSub_iff_countOcc.mp hp0)]
    rw [← blockText_shape it.1 it.2.1 (serialize it.2.2 rest)]
    rw [parseLoopC_block _ hn hb]
    rw [ih it.2.2 hpr (fun x hx => hits x (by simp [hx]))]
    simp

/-! ## The companion `cleanResponseText` over serialized texts -/

/-- The secondary scan ignores marker-free text entirely. -/
theorem cleanLoop_id {p : List Char} (hp : countOcc startMk p = 0) :
    cleanLoop p = p := by
  induction p with
  | nil => rfl
  | cons c t ih =>
    have h1 := (countOcc_cons_zero hp).1
    rw [cleanLoop_cons, if_neg (by simp [h1])]
    rw [ih (countOcc_cons_zero hp).2]

/-- The secondary scan passes over marker-free prose unchanged. -/
theorem cleanLoop_skip {p r : List Char} (hp : countOcc startMk p = 0) :
    cleanLoop (p ++ (startMk ++ r)) = p ++ cleanLoop (startMk ++ r) := by
  induction p with
  | nil => simp
  | cons c t ih =>
    have hfalse : prefixOf startMk ((c :: t) ++ (startMk ++ r)) = false := by
      have h13 : startMk.length = 13 := by decide
      exact no_cross_prefix (by rw [h13]; exact selfOverlap_startMk) hp (by simp)
    simp only [List.cons_append] at hfalse
    rw [List.cons_append, cleanLoop_cons, if_neg (by simp [hfalse])]
    rw [ih (countOcc_cons_zero hp).2]
    simp

/-- The secondary scan removes one well-formed block entirely. -/
theorem cleanLoop_block {n b : List Char} (s : List Char)
    (hn : ∀ c ∈ n, c ≠ '*')
    (hb : hasSub "***FILE_END".data b = false) :
    cleanLoop (blockText n b ++ s) = cleanLoop s := by
  rw [blockText_shape2]
  have hcons : startMk = '*' :: "**FILE_START".data := by decide
  have hbz : countOcc endMk b = 0 :=
    countOcc_mono_zero (by decide : prefixOf "***FILE_END".data endMk = true)
      (hasSub_iff_countOcc.mp hb)
  have hpre : prefixOf startMk (startMk ++
      ((':' :: ' ' :: (n ++ ['*', '*', '*'] ++ '\n' :: (b ++ ['\n']))) ++
        (endMk ++ s))) = true := prefixOf_self_append _ _
  have hdrop : (startMk ++
      ((':' :: ' ' :: (n ++ ['*', '*', '*'] ++ '\n' :: (b ++ ['\n']))) ++
        (endMk ++ s))).drop 13 =
      (':' :: ' ' :: (n ++ ['*', '*', '*'] ++ '\n' :: (b ++ ['\n']))) ++
        (endMk ++ s) := by
    have h13 : (13 : Nat) = startMk.length := by decide
    rw [h13, List.drop_left]
  have hsplit : findSplit endMk
      ((':' :: ' ' :: (n ++ ['*', '*', '*'] ++ '\n' :: (b ++ ['\n']))) ++
        (endMk ++ s)) =
      some ((':' :: ' ' :: (n ++ ['*', '*', '*'] ++ '\n' :: (b ++ ['\n']))), s) := by
    apply findSplit_endMk (countOcc_endMk_mid hn hbz)
    rw [show (':' :: ' ' :: (n ++ ['*', '*', '*'] ++ '\n' :: (b ++ ['\n']))) =
      (':' :: ' ' :: (n ++ ['*', '*', '*'] ++ '\n' :: b)) ++ ['\n'] from by
        simp [List.append_assoc]]
    exact List.getLast?_concat _
  rw [show startMk ++
      ((':' :: ' ' :: (n ++ ['*', '*', '*'] ++ '\n' :: (b ++ ['\n']))) ++
        (endMk ++ s)) = '*' :: ("**FILE_START".data ++
      ((':' :: ' ' :: (n ++ ['*', '*', '*'] ++ '\n' :: (b ++ ['\n']))) ++
        (endMk ++ s))) from by rw [hcons]; simp]
  rw [cleanLoop_cons]
  rw [show prefixOf startMk ('*' :: ("**FILE_START".data ++
      ((':' :: ' ' :: (n ++ ['*', '*', '*'] ++ '\n' :: (b ++ ['\n']))) ++
        (endMk ++ s)))) = true from by
    rw [← List.cons_append, ← hcons]
    exact hpre]
  simp only [if_true]
  rw [show ('*' :: ("**FILE_START".data ++
      ((':' :: ' ' :: (n ++ ['*', '*', '*'] ++ '\n' :: (b ++ ['\n']))) ++
        (endMk ++ s)))).drop 13 =
      (':' :: ' ' :: (n ++ ['*', '*', '*'] ++ '\n' :: (b ++ ['\n']))) ++
        (endMk ++ s) from by
    rw [← List.cons_append, ← hcons]
    exact hdrop]
  rw [hsplit]

/-! ## Trim lemmas and occurrence preservation -/

theorem trimJs_nows {l : List Char} (h : ∀ c ∈ l, jsWs c = false) :
    trimJs l = l := by
  unfold trimJs
  have h1 : l.dropWhile jsWs = l := by
    cases l with
    | nil => rfl
    | cons c t => simp [List.dropWhile, h c (by simp)]
  rw [h1]
  have h2 : l.reverse.dropWhile jsWs = l.reverse := by
    cases hr : l.reverse with
    | nil => rfl
    | cons c t =>
      have hc : c ∈ l := by
        have : c ∈ l.reverse := by rw [hr]; simp
        simpa using this
      simp [List.dropWhile, h c hc]
  rw [h2, List.reverse_reverse]

theorem trimJs_pad (l : List Char) : trimJs ('\n' :: (l ++ ['\n'])) = trimJs l := by
  unfold trimJs
  have hnl : jsWs '\n' = true := by decide
  have h1 : List.dropWhile jsWs ('\n' :: (l ++ ['\n'])) =
      List.dropWhile jsWs (l ++ ['\n']) := by
    simp [List.dropWhile, hnl]
  rw [h1, List.dropWhile_append]
  split
  · rename_i hemp
    have hl : l.dropWhile jsWs = [] := List.isEmpty_iff.mp hemp
    rw [hl]
    simp [List.dropWhile, hnl]
  · rename_i hemp
    rw [List.reverse_append]
    have : (['\n'] : List Char).reverse = ['\n'] := rfl
    rw [this]
    simp [List.dropWhile, hnl]

theorem countOcc_dropWhile_zero {n l : List Char} (p : Char → Bool)
    (h : countOcc n l = 0) : countOcc n (l.dropWhile p) = 0 := by
  induction l with
  | nil => simpa using h
  | cons c t ih =>
    simp only [List.dropWhile]
    split
    · exact ih (countOcc_cons_zero h).2
    · exact h

theorem countOcc_trim_zero {n l : List Char} (h : countOcc n l = 0) :
    countOcc n (trimJs l) = 0 := by
  unfold trimJs
  have h1 : countOcc n (l.dropWhile jsWs) = 0 := countOcc_dropWhile_zero _ h
  have hdecomp : ((l.dropWhile jsWs).reverse.dropWhile jsWs).reverse ++
      ((l.dropWhile jsWs).reverse.takeWhile jsWs).reverse = l.dropWhile jsWs := by
    rw [← List.reverse_append, List.takeWhile_append_dropWhile, List.reverse_reverse]
  have hle := countOcc_left_le n
    (((l.dropWhile jsWs).reverse.dropWhile jsWs).reverse)
    (((l.dropWhile jsWs).reverse.takeWhile jsWs).reverse)
  rw [hdecomp] at hle
  omega

/-! ## The round trip of `cleanResponseText` over serialized texts -/

theorem cleanLoop_serialize (items : List (List Char × List Char × List Char))
    (p0 : List Char) (hp0 : hasSub startMk p0 = false) (hits : wfItems items) :
    cleanLoop (serialize p0 items) = p0 ++ concatProse items := by
  induction items generalizing p0 with
  | nil =>
    rw [serialize, cleanLoop_id (hasSub_iff_countOcc.mp hp0)]
    simp [concatProse]
  | cons it rest ih =>
    obtain ⟨hn, hb, hpr⟩ := hits it (by simp)
    rw [serialize]
    rw [blockText_shape2 it.1 it.2.1 (serialize it.2.2 rest)]
    rw [cleanLoop_skip (hasSub_iff_countOcc.mp hp0)]
    rw [← blockText_shape2 it.1 it.2.1 (serialize it.2.2 rest)]
    rw [cleanLoop_block _ (fun c hc => (hn c hc).2) hb]
    rw [ih it.2.2 hpr (fun x hx => hits x (by simp [hx]))]
    simp [concatProse, List.append_assoc]

/-! ## Claim C8: the concrete extraction round trip -/

/-- **C8** — `extract` on its own re-serialization:
`***FILE_START: a.txt***\nhello\n***FILE_END***` yields exactly
`[{name: "a.txt", language: "txt", content: "hello"}]`. -/
theorem extract_roundtrip_example :
    parseGeneratedContent "***FILE_START: a.txt***\nhello\n***FILE_END***" =
      [{ name := "a.txt", language := "txt", content := "hello" }] := by rfl

/-! ## Claim C1: extraction of well-formed delimited blocks -/

/-- **C1** (counterexample) — on a well-formed block whose filename has no
extension, the extracted language is the lower-cased filename, not the
claimed default `text`: `Makefile` yields language `makefile`. -/
theorem extract_language_default_refuted :
    parseGeneratedContent "***FILE_START: Makefile***\nhello\n***FILE_END***" =
      [{ name := "Makefile", language := "makefile", content := "hello" }] ∧
    (∀ c ∈ "Makefile".data, c ≠ '.') ∧ ("makefile" : String) ≠ "text" := by
  refine ⟨by rfl, by decide, by decide⟩

/-- **C1** (amended) — for every text made of `N ≥ 1` well-formed delimited
blocks interleaved with marker-free prose (names without whitespace or
asterisks, bodies without the closing-marker token), `extract` returns
exactly `N` artifacts in source order; each artifact keeps the filename as
written, its content is the whitespace-trimmed body with at most one
fenced-code wrapper stripped, and its language is the last dot-separated
segment of the filename lower-cased — the whole filename lower-cased when
there is no dot — with `text` only when that segment is empty. -/
theorem extract_wellformed_blocks (p0 : List Char)
    (items : List (List Char × List Char × List Char))
    (hne : items ≠ [])
    (hp0 : hasSub startMk p0 = false)
    (hits : wfItems items) :
    parseGeneratedContent (String.mk (serialize p0 items)) =
      items.map (fun it =>
        { name := String.mk it.1
          language := String.mk (langOf it.1)
          content := String.mk (fenceTail (fenceHead (trimJs it.2.1))) }) := by
  have hlist := parseLoopC_serialize items p0 hp0 hits
  have hpt : ∀ x ∈ items,
      mkParsedFile x.1 ('\n' :: (x.2.1 ++ ['\n'])) =
      ({ name := String.mk x.1
         language := String.mk (langOf x.1)
         content := String.mk (fenceTail (fenceHead (trimJs x.2.1))) } :
        GeneratedFile) := by
    intro x hx
    obtain ⟨hnx, _, _⟩ := hits x hx
    unfold mkParsedFile
    rw [trimJs_nows (fun c hc => (hnx c hc).1), trimJs_pad]
  show (let files := parseLoopC (String.mk (serialize p0 items)).data
    if files.isEmpty then fbLoop [] (String.mk (serialize p0 items)).data 1
    else files) = _
  simp only
  rw [hlist]
  have hne2 : (items.map
      (fun it => mkParsedFile it.1 ('\n' :: (it.2.1 ++ ['\n'])))).isEmpty = false := by
    cases items with
    | nil => exact absurd rfl hne
    | cons a l => simp
  rw [hne2]
  simp only [Bool.false_eq_true, if_false]
  exact List.map_congr_left hpt

/-- **C1** (witness) — the amended statement applied to a two-block text. -/
theorem extract_wellformed_blocks_witness :
    parseGeneratedContent (String.mk (serialize "intro\n".data
      [("a.txt".data, "A".data, "\nmiddle\n".data),
       ("b.PY".data, "B".data, "\nend".data)])) =
      [{ name := "a.txt", language := "txt", content := "A" },
       { name := "b.PY", language := "py", content := "B" }] := by
  rw [extract_wellformed_blocks "intro\n".data
    [("a.txt".data, "A".data, "\nmiddle\n".data),
     ("b.PY".data, "B".data, "\nend".data)]
    (by simp) (by rfl)
    (by
      intro it hit
      simp only [List.mem_cons, List.mem_singleton] at hit
      rcases hit with h | h | h
      · subst h; exact ⟨by decide, by rfl, by rfl⟩
      · subst h; exact ⟨by decide, by rfl, by rfl⟩
      · cases h)]
  rfl

/-! ## Claim C5: `strip` (`cleanResponseText`) -/

/-- **C5** (counterexample) — on a text with an unterminated opening marker
nothing is removed, and the residual still contains the marker token, so the
claim as stated (the residual never contains a marker token) is false. -/
theorem strip_residual_refuted :
    hasSub startMk
      (cleanResponseText "Notes: ***FILE_START: a.txt*** unterminated").data = true := by
  rfl

/-- **C5** (amended) — on every text made of well-formed delimited blocks
interleaved with marker-free prose, `strip` removes exactly the delimited
regions: the residual is the trimmed concatenation of the prose, and it
contains no marker token provided that concatenation has none. -/
theorem strip_removes_blocks (p0 : List Char)
    (items : List (List Char × List Char × List Char))
    (hp0 : hasSub startMk p0 = false)
    (hits : wfItems items) :
    cleanResponseText (String.mk (serialize p0 items)) =
      String.mk (trimJs (p0 ++ concatProse items)) ∧
    (hasSub startMk (p0 ++ concatProse items) = false →
      hasSub startMk (cleanResponseText (String.mk (serialize p0 items))).data = false) ∧
    (hasSub endMk (p0 ++ concatProse items) = false →
      hasSub endMk (cleanResponseText (String.mk (serialize p0 items))).data = false) := by
  have hmain : cleanResponseText (String.mk (serialize p0 items)) =
      String.mk (trimJs (p0 ++ concatProse items)) := by
    unfold cleanResponseText
    rw [show (String.mk (serialize p0 items)).data = serialize p0 items from rfl]
    rw [cleanLoop_serialize items p0 hp0 hits]
  refine ⟨hmain, ?_, ?_⟩
  · intro hfree
    rw [hmain]
    exact hasSub_iff_countOcc.mpr
      (countOcc_trim_zero (hasSub_iff_countOcc.mp hfree))
  · intro hfree
    rw [hmain]
    exact hasSub_iff_countOcc.mpr
      (countOcc_trim_zero (hasSub_iff_countOcc.mp hfree))

/-- **C5** (witness) — the amended statement applied to a concrete
prose-block-prose text. -/
theorem strip_removes_blocks_witness :
    cleanResponseText (String.mk (serialize "Here you go\n".data
      [("a.txt".data, "hello".data, "\nEnjoy!".data)])) = "Here you go\n\nEnjoy!" ∧
    hasSub startMk "Here you go\n\nEnjoy!".data = false := by
  have h := strip_removes_blocks "Here you go\n".data
    [("a.txt".data, "hello".data, "\nEnjoy!".data)]
    (by rfl)
    (by
      intro it hit
      simp only [List.mem_singleton] at hit
      subst hit
      exact ⟨by decide, by rfl, by rfl⟩)
  refine ⟨?_, by rfl⟩
  rw [h.1]
  rfl

/-! ## Claim C2: the classification precedence -/

/-- A preferred preview artifact exists (case-insensitive name match). -/
def hasPreviewArtifact (files : List GeneratedFile) : Prop :=
  ∃ f ∈ files, f.name.data.map asciiLower = "preview.html".data

/-- A further markup artifact (`.html`, other than the preview) exists. -/
def hasMarkupArtifact (files : List GeneratedFile) : Prop :=
  ∃ f ∈ files, endsWith ".html".data f.name.data = true ∧ f.name ≠ "preview.html"

/-- A script-family artifact (`.js`, `.jsx`, `.ts`, `.tsx`) exists. -/
def hasScriptArtifact (files : List GeneratedFile) : Prop :=
  ∃ f ∈ files, isScriptName f.name.data = true

/-- An artifact of the fixed native-language extension table exists. -/
def hasNativeArtifact (files : List GeneratedFile) : Prop :=
  ∃ f ∈ files, isNativeName f.name.data = true

/-- A templating-language (`.liquid`) artifact exists. -/
def hasLiquidArtifact (files : List GeneratedFile) : Prop :=
  ∃ f ∈ files, endsWith ".liquid".data f.name.data = true

/-- The UI-framework import signature probe of src/utils/compiler.ts 122. -/
def reactSignature (f : GeneratedFile) : Bool :=
  strIncludes f.content "import React" || strIncludes f.content "react-dom" ||
  strIncludes f.content "from \"react\"" || strIncludes f.content "from \x27react\x27"

/-- A script-family artifact whose content carries the framework signature. -/
def hasReactArtifact (files : List GeneratedFile) : Prop :=
  ∃ f ∈ files, isScriptName f.name.data = true ∧ reactSignature f = true

/-- The condition under which the program classifies a set `native`. -/
def nativeCondProp (files : List GeneratedFile) : Prop :=
  ¬hasPreviewArtifact files ∧ ¬hasMarkupArtifact files ∧
  ¬hasScriptArtifact files ∧ hasNativeArtifact files

theorem isNativeOf_iff {files : List GeneratedFile} :
    isNativeOf files = true ↔ nativeCondProp files := by
  unfold isNativeOf nativeCondProp hasPreviewArtifact hasMarkupArtifact
    hasScriptArtifact hasNativeArtifact previewHtmlFileOf htmlFileOf jsFilesOf
    nativeFileOf
  simp [Option.isNone_iff_eq_none, List.find?_eq_none, List.find?_isSome,
    List.isEmpty_iff, List.filter_eq_nil_iff]
  tauto

theorem isReactOf_iff {files : List GeneratedFile} :
    isReactOf files = true ↔ hasReactArtifact files := by
  unfold isReactOf hasReactArtifact jsFilesOf reactSignature
  simp [List.any_eq_true, List.mem_filter]

theorem liquidCond_iff {files : List GeneratedFile} :
    ((previewHtmlFileOf files).isNone && (htmlFileOf files).isNone &&
      (liquidFileOf files).isSome) = true ↔
    (¬hasPreviewArtifact files ∧ ¬hasMarkupArtifact files ∧
      hasLiquidArtifact files) := by
  unfold previewHtmlFileOf htmlFileOf liquidFileOf hasPreviewArtifact
    hasMarkupArtifact hasLiquidArtifact
  simp [Option.isNone_iff_eq_none, List.find?_eq_none, List.find?_isSome]
  tauto

/-- **C2** (counterexample) — a style artifact does not block the native
branch: `[style.css, main.py]` is classified `native` although a style file
exists, and `[index.html, page.liquid]` is classified `plain` although a
templating artifact exists and no framework was detected, so both the
claimed native condition and the claimed templating condition are wrong. -/
theorem classify_style_file_refuted :
    classify [⟨"style.css", "css", "body \x7b \x7d"⟩,
      ⟨"main.py", "python", "print(1)"⟩] = ProjectKind.native ∧
    cssFilesOf [⟨"style.css", "css", "body \x7b \x7d"⟩,
      ⟨"main.py", "python", "print(1)"⟩] ≠ [] ∧
    classify [⟨"index.html", "html", "<p>hi</p>"⟩,
      ⟨"page.liquid", "liquid", "x"⟩] = ProjectKind.plain ∧
    hasLiquidArtifact [⟨"index.html", "html", "<p>hi</p>"⟩,
      ⟨"page.liquid", "liquid", "x"⟩] ∧
    ¬hasReactArtifact [⟨"index.html", "html", "<p>hi</p>"⟩,
      ⟨"page.liquid", "liquid", "x"⟩] := by
  refine ⟨by rfl, by decide, by rfl,
    by unfold hasLiquidArtifact; decide,
    by unfold hasReactArtifact; decide⟩

/-- **C2** (amended) — the precedence with the conditions as the code tests
them: `native` iff no preview artifact, no other markup artifact and no
script-family artifact exists but a native-language artifact does (style
artifacts do not affect the test); else `framework` iff some script-family
artifact carries a framework import signature; else `templating` iff
moreover no preview or markup artifact exists and a templating artifact
does; else `plain`. -/
theorem classify_precedence (files : List GeneratedFile) :
    (classify files = ProjectKind.native ↔ nativeCondProp files) ∧
    (classify files = ProjectKind.framework ↔
      (¬nativeCondProp files ∧ hasReactArtifact files)) ∧
    (classify files = ProjectKind.templating ↔
      (¬nativeCondProp files ∧ ¬hasReactArtifact files ∧
       ¬hasPreviewArtifact files ∧ ¬hasMarkupArtifact files ∧
       hasLiquidArtifact files)) ∧
    (classify files = ProjectKind.plain ↔
      (¬nativeCondProp files ∧ ¬hasReactArtifact files ∧
       ¬(¬hasPreviewArtifact files ∧ ¬hasMarkupArtifact files ∧
         hasLiquidArtifact files))) := by
  unfold classify
  by_cases h1 : isNativeOf files = true
  · have hn := isNativeOf_iff.mp h1
    rw [if_pos (by rw [h1])]
    exact ⟨iff_of_true rfl hn,
      iff_of_false (by simp) (fun hc => hc.1 hn),
      iff_of_false (by simp) (fun hc => hc.1 hn),
      iff_of_false (by simp) (fun hc => hc.1 hn)⟩
  · have hn : ¬nativeCondProp files := fun hc => h1 (isNativeOf_iff.mpr hc)
    rw [if_neg (by simpa using h1)]
    by_cases h2 : isReactOf files = true
    · have hr := isReactOf_iff.mp h2
      rw [if_pos (by rw [h2])]
      exact ⟨iff_of_false (by simp) hn,
        iff_of_true rfl ⟨hn, hr⟩,
        iff_of_false (by simp) (fun hc => hc.2.1 hr),
        iff_of_false (by simp) (fun hc => hc.2.1 hr)⟩
    · have hr : ¬hasReactArtifact files := fun hc => h2 (isReactOf_iff.mpr hc)
      rw [if_neg (by simpa using h2)]
      by_cases h3 : ((previewHtmlFileOf files).isNone && (htmlFileOf files).isNone &&
          (liquidFileOf files).isSome) = true
      · have hl := liquidCond_iff.mp h3
        rw [if_pos (by rw [h3])]
        exact ⟨iff_of_false (by simp) hn,
          iff_of_false (by simp) (fun hc => hr hc.2),
          iff_of_true rfl ⟨hn, hr, hl.1, hl.2.1, hl.2.2⟩,
          iff_of_false (by simp)
            (fun hc => hc.2.2 ⟨hl.1, hl.2.1, hl.2.2⟩)⟩
      · have hl : ¬(¬hasPreviewArtifact files ∧ ¬hasMarkupArtifact files ∧
            hasLiquidArtifact files) := fun hc => h3 (liquidCond_iff.mpr hc)
        rw [if_neg (by simpa using h3)]
        exact ⟨iff_of_false (by simp) hn,
          iff_of_false (by simp) (fun hc => hr hc.2),
          iff_of_false (by simp)
            (fun hc => hl ⟨hc.2.2.1, hc.2.2.2.1, hc.2.2.2.2⟩),
          iff_of_true rfl ⟨hn, hr, hl⟩⟩

/-! ## Claim C6: the simulated `cout` output -/

/-- The console bridge message for string arguments: `send` in the console
hook (src/utils/compiler.ts 129-144) maps each argument through `String` and
joins with a single space. -/
def hookMessage (args : List (List Char)) : List Char :=
  joinSep [' '] args

/-- A minimal C++ artifact around `cout << "Hi" << endl;`. -/
def cppHiProg : List Char :=
  "#include <iostream>\nusing namespace std;\n\nint main() \x7b\n    cout << \"Hi\" << endl;\n    return 0;\n\x7d".data

/-- **C6** (counterexample) — the transpiled statement is
`console.log("Hi", "\n");`, and the console bridge joins its two arguments
with a space: the emitted line is `Hi \x20\n`, not `Hi` immediately followed
by a newline, so the claimed equivalence fails. -/
theorem cpp_cout_refuted :
    hasSub "console.log(\"Hi\", \"\\n\");".data (transpileCppToJs cppHiProg) = true ∧
    hookMessage ["Hi".data, "\n".data] ≠ "Hi".data ++ "\n".data := by
  exact ⟨by rfl, by decide⟩

/-- **C6** (amended) — native simulation of the C-family artifact rewrites
`cout << "Hi" << endl;` into the single console write
`console.log("Hi", "\n");`; the hooked console line for those two arguments
is `Hi`, a separating space, then the newline. -/
theorem cpp_cout_simulation :
    coutLineTransform "cout << \"Hi\" << endl;".data =
      "console.log(\"Hi\", \"\\n\");".data ∧
    hasSub "console.log(\"Hi\", \"\\n\");".data (transpileCppToJs cppHiProg) = true ∧
    hookMessage ["Hi".data, "\n".data] = "Hi \n".data := by
  exact ⟨by rfl, by rfl, by rfl⟩

/-! ## Claim C3: totality of the assembly and the empty shell -/

theorem append_ne_nil_l {a : List Char} (b : List Char) (ha : a ≠ []) :
    a ++ b ≠ [] := by
  intro h
  exact ha (List.append_eq_nil.mp h).1

theorem append_ne_nil_r (a : List Char) {b : List Char} (hb : b ≠ []) :
    a ++ b ≠ [] := by
  intro h
  exact hb (List.append_eq_nil.mp h).2

theorem replaceOnce_ne_nil {pat rep : List Char} (s : List Char)
    (hrep : rep ≠ []) (hs : s ≠ []) : replaceOnce pat rep s ≠ [] := by
  cases s with
  | nil => exact absurd rfl hs
  | cons c t =>
    rw [replaceOnce]
    split
    · exact append_ne_nil_l _ hrep
    · simp

theorem hasSub_ne_nil {n s : List Char} (hn : n ≠ []) (h : hasSub n s = true) :
    s ≠ [] := by
  cases s with
  | nil =>
    cases n with
    | nil => exact absurd rfl hn
    | cons c t => simp [hasSub, prefixOf] at h
  | cons c t => simp

theorem bodyIf_ne_nil (h1 bs : List Char) (hbs : bs ≠ []) :
    (if hasSub "</body>".data h1 = true
     then replaceOnce "</body>".data (bs ++ "\n</body>".data) h1
     else h1 ++ bs) ≠ [] := by
  split
  · rename_i hb
    apply replaceOnce_ne_nil
    · exact append_ne_nil_r _ (by decide)
    · exact hasSub_ne_nil (by decide) hb
  · exact append_ne_nil_r _ hbs

theorem headIf_ne_nil (html : List Char) :
    (if hasSub "<head>".data html = true
     then replaceOnce "<head>".data ("<head>".data ++ consoleHookStr) html
     else consoleHookStr ++ html) ≠ [] := by
  split
  · rename_i hh
    apply replaceOnce_ne_nil
    · decide
    · exact hasSub_ne_nil (by decide) hh
  · exact append_ne_nil_l _ (by decide)

theorem reactApply_ne_nil (files : List GeneratedFile) (html : List Char) :
    reactApply files html ≠ [] := by
  simp only [reactApply]
  exact bodyIf_ne_nil _ _ (append_ne_nil_l _ (append_ne_nil_l _ (by decide)))

theorem vanillaApply_ne_nil (files : List GeneratedFile) (html : List Char) :
    vanillaApply files html ≠ [] := by
  simp only [vanillaApply]
  split
  · exact headIf_ne_nil html
  · split
    · split
      · rename_i hb
        apply replaceOnce_ne_nil
        · exact append_ne_nil_r _ (by decide)
        · exact hasSub_ne_nil (by decide) hb
      · apply append_ne_nil_r
        decide
    · split
      · rename_i hb
        apply replaceOnce_ne_nil
        · exact append_ne_nil_r _ (by decide)
        · exact hasSub_ne_nil (by decide) hb
      · apply append_ne_nil_r
        decide

theorem nativeShellOf_ne_nil (nf : GeneratedFile) : nativeShellOf nf ≠ [] := by
  unfold nativeShellOf
  exact append_ne_nil_l _ (append_ne_nil_l _ (append_ne_nil_l _
    (append_ne_nil_l _ (by decide))))

theorem mainAssemble_ne_nil (files : List GeneratedFile) :
    mainAssemble files ≠ [] := by
  simp only [mainAssemble]
  split
  · exact reactApply_ne_nil _ _
  · exact vanillaApply_ne_nil _ _

/-- The synthesized empty shell up to and including `<head>`. -/
def emptyDocPre : List Char :=
  "\n<!DOCTYPE html>\n<html lang=\"en\">\n<head>".data

/-- The synthesized empty shell after the injected console hook. -/
def emptyDocPost : List Char :=
  "\n  <meta charset=\"UTF-8\">\n  <meta name=\"viewport\" content=\"width=device-width, initial-scale=1.0\">\n  <title>Preview</title>\n  <style>\n    body, html \x7b \n      background-color: #ffffff; \n      color: #1e293b; \n      margin: 0; \n      padding: 0;\n      height: 100%;\n      width: 100%;\n      font-family: system-ui, -apple-system, sans-serif; \n    \x7d\n    #root \x7b \n      min-height: 100%; \n      display: flex;\n      flex-direction: column;\n    \x7d\n  </style>\n</head>\n<body>\n  <div id=\"root\"></div>\n</body>\n</html>".data

/-- **C3** — the assembly is a total function of the artifact list; on the
empty list it returns the synthesized empty-root shell (the default document
with the console hook spliced in after `<head>`, still carrying the empty
`root` mount element), and on every list it returns a non-empty document. -/
theorem assemble_total_empty_shell :
    assemblePreview [] = String.mk (emptyDocPre ++ consoleHookStr ++ emptyDocPost) ∧
    hasSub "<div id=\"root\"></div>".data emptyDocPost = true ∧
    ∀ files : List GeneratedFile, assemblePreview files ≠ "" := by
  refine ⟨by rfl, by rfl, ?_⟩
  intro files
  have key : ∀ l : List Char, l ≠ [] → String.mk l ≠ "" := by
    intro l hl h
    exact hl (congrArg String.data h)
  unfold assemblePreview
  split
  · split
    · exact key _ (nativeShellOf_ne_nil _)
    · exact key _ (mainAssemble_ne_nil _)
  · exact key _ (mainAssemble_ne_nil _)

/-! ## Claim C10: the assembly never mutates its input

JavaScript arrays are heap references; `files.filter(...)` allocates a fresh
array, and the single mutating operation of `assemblePreview` —
`jsFiles.sort(...)` — writes through the reference produced by that filter.
The heap of arrays is made explicit so the claim is about references, not
values. -/

/-- A heap of arrays of artifacts. -/
structure ArrState where
  arrays : List (List GeneratedFile)

/-- Read through an array reference. -/
def readArr (st : ArrState) (i : Nat) : List GeneratedFile :=
  (st.arrays.get? i).getD []

/-- Allocate a fresh array holding `v`; returns its reference. -/
def allocArr (st : ArrState) (v : List GeneratedFile) : Nat × ArrState :=
  (st.arrays.length, ⟨st.arrays ++ [v]⟩)

/-- Overwrite the array behind a reference. -/
def writeArr (st : ArrState) (i : Nat) (v : List GeneratedFile) : ArrState :=
  ⟨st.arrays.set i v⟩

/-- `assemblePreview` over the explicit heap: `files.filter` allocates the
`cssFiles` and `jsFiles` arrays (src/utils/compiler.ts 109-116), and
`jsFiles.sort(...)` (line 368, reached on the framework path) writes the
sorted permutation back through the `jsFiles` reference.  Every other array
operation of the source is a read. -/
def assemblePreviewSt (filesRef : Nat) (st : ArrState) : String × ArrState :=
  let files := readArr st filesRef
  let a1 := allocArr st (cssFilesOf files)
  let a2 := allocArr a1.2 (jsFilesOf files)
  if isNativeOf files then
    (assemblePreview files, a2.2)
  else if isReactOf files then
    (assemblePreview files,
     writeArr a2.2 a2.1
       (stableSortByScore (fun f => getScore f.name.data) (readArr a2.2 a2.1)))
  else (assemblePreview files, a2.2)

theorem readArr_alloc_lt {st : ArrState} {i : Nat} (v : List GeneratedFile)
    (h : i < st.arrays.length) : readArr (allocArr st v).2 i = readArr st i := by
  unfold readArr allocArr
  simp only [List.get?_eq_getElem?]
  rw [List.getElem?_append_left h]

theorem readArr_write_ne {st : ArrState} {i j : Nat} (v : List GeneratedFile)
    (h : i ≠ j) : readArr (writeArr st j v) i = readArr st i := by
  unfold readArr writeArr
  simp only [List.get?_eq_getElem?]
  rw [List.getElem?_set_ne (Ne.symm h)]

theorem insAfterLe_perm (score : GeneratedFile → Nat) (x : GeneratedFile) :
    ∀ l : List GeneratedFile, (insAfterLe score x l).Perm (x :: l) := by
  intro l
  induction l with
  | nil => exact List.Perm.refl _
  | cons y ys ih =>
    rw [insAfterLe]
    split
    · exact (List.Perm.cons y ih).trans (List.Perm.swap x y ys)
    · exact List.Perm.refl _

theorem stableSort_fold_perm (score : GeneratedFile → Nat) :
    ∀ (l acc : List GeneratedFile),
      (l.foldl (fun a x => insAfterLe score x a) acc).Perm (acc ++ l) := by
  intro l
  induction l with
  | nil => intro acc; simp
  | cons x t ih =>
    intro acc
    rw [List.foldl_cons]
    refine (ih (insAfterLe score x acc)).trans ?_
    refine (List.Perm.append_right t (insAfterLe_perm score x acc)).trans ?_
    exact List.perm_middle.symm

theorem stableSortByScore_perm (score : GeneratedFile → Nat)
    (l : List GeneratedFile) : (stableSortByScore score l).Perm l := by
  unfold stableSortByScore
  simpa using stableSort_fold_perm score l []

/-- **C10** — the assembly never mutates its input array: over the explicit
heap of array references, the input reference holds the same artifact list
(names, languages, contents and order intact) after the call; the result
string is a pure function of that list; and the dependency sort produces a
permutation of the filtered script list without touching the input. -/
theorem assemble_preserves_input (filesRef : Nat) (st : ArrState)
    (h : filesRef < st.arrays.length) :
    readArr (assemblePreviewSt filesRef st).2 filesRef = readArr st filesRef ∧
    (assemblePreviewSt filesRef st).1 = assemblePreview (readArr st filesRef) ∧
    (sortedJsOf (readArr st filesRef)).Perm (jsFilesOf (readArr st filesRef)) := by
  refine ⟨?_, ?_, ?_⟩
  · simp only [assemblePreviewSt]
    have h1 : filesRef < ((allocArr st (cssFilesOf (readArr st filesRef))).2).arrays.length := by
      unfold allocArr
      simp
      omega
    have hne : filesRef ≠ (allocArr (allocArr st (cssFilesOf (readArr st filesRef))).2
        (jsFilesOf (readArr st filesRef))).1 := by
      unfold allocArr
      simp
      omega
    split
    · rw [readArr_alloc_lt _ h1, readArr_alloc_lt _ h]
    · split
      · rw [readArr_write_ne _ hne, readArr_alloc_lt _ h1, readArr_alloc_lt _ h]
      · rw [readArr_alloc_lt _ h1, readArr_alloc_lt _ h]
  · simp only [assemblePreviewSt]
    split
    · rfl
    · split
      · rfl
      · rfl
  · unfold sortedJsOf
    exact stableSortByScore_perm _ _

/-- **C10** (witness) — the preservation applied to a one-array heap holding
two artifacts. -/
theorem assemble_preserves_input_witness :
    readArr (assemblePreviewSt 0
      ⟨[[⟨"App.jsx", "jsx", "const App = 1"⟩, ⟨"a.css", "css", ""⟩]]⟩).2 0 =
      [⟨"App.jsx", "jsx", "const App = 1"⟩, ⟨"a.css", "css", ""⟩] ∧
    (sortedJsOf [⟨"App.jsx", "jsx", "const App = 1"⟩, ⟨"a.css", "css", ""⟩]).Perm
      (jsFilesOf [⟨"App.jsx", "jsx", "const App = 1"⟩, ⟨"a.css", "css", ""⟩]) := by
  have hmain := assemble_preserves_input 0
    ⟨[[⟨"App.jsx", "jsx", "const App = 1"⟩, ⟨"a.css", "css", ""⟩]]⟩ (by decide)
  refine ⟨hmain.1.trans (by rfl), ?_⟩
  have := hmain.2.2
  simpa using this

/-! ## Claim C9: the fallback extraction with a filename hint -/

theorem tryFence_none_head {c : Char} (t : List Char) (hc : c ≠ '\x60') :
    tryFence (c :: t) = none := by
  rw [tryFence, if_pos]
  rw [List.takeWhile_cons]
  simp [hc]

theorem fbGo_nil (f : Nat) (pre : List Char) (k : Nat) :
    fbGo f pre [] k = [] := by
  cases f <;> rfl

theorem fbGo_congr :
    ∀ (n : Nat) (l : List Char), l.length ≤ n → ∀ pre k f g, l.length ≤ f →
      l.length ≤ g → fbGo f pre l k = fbGo g pre l k := by
  intro n
  induction n with
  | zero =>
    intro l hl pre k f g _ _
    have : l = [] := List.eq_nil_of_length_eq_zero (Nat.le_zero.mp hl)
    subst this
    rw [fbGo_nil, fbGo_nil]
  | succ n ih =>
    intro l hl pre k f g hf hg
    cases l with
    | nil => rw [fbGo_nil, fbGo_nil]
    | cons c t =>
      cases f with
      | zero => simp at hf
      | succ f' =>
        cases g with
        | zero => simp at hg
        | succ g' =>
          simp only [fbGo]
          cases hstep : tryFence (c :: t) with
          | none =>
            show fbGo f' (c :: pre) t k = fbGo g' (c :: pre) t k
            exact ih t (by simp at hl ⊢; omega) _ _ f' g' (by simp at hf ⊢; omega)
              (by simp at hg ⊢; omega)
          | some lbr =>
            obtain ⟨u, v, w⟩ := lbr
            have hlen := tryFence_length hstep
            simp only [List.length_cons] at hlen hl hf hg
            show _ :: fbGo f' _ w (k + 1) = _ :: fbGo g' _ w (k + 1)
            rw [ih w (by omega) _ _ f' g' (by omega) (by omega)]

theorem fbLoop_cons (pre : List Char) (c : Char) (t : List Char) (k : Nat) :
    fbLoop pre (c :: t) k =
      match tryFence (c :: t) with
      | some lbr =>
        { name := String.mk (fbName pre.reverse k lbr.1)
          language := String.mk (if lbr.1 = [] then "text".data else lbr.1)
          content := String.mk (trimJs lbr.2.1) } ::
          fbLoop (((c :: t).take ((c :: t).length - lbr.2.2.length)).reverse ++ pre)
            lbr.2.2 (k + 1)
      | none => fbLoop (c :: pre) t k := by
  show fbGo (t.length + 1) pre (c :: t) k = _
  simp only [fbGo]
  cases hstep : tryFence (c :: t) with
  | none =>
    show fbGo t.length (c :: pre) t k = fbLoop (c :: pre) t k
    rfl
  | some lbr =>
    obtain ⟨u, v, w⟩ := lbr
    have hlen := tryFence_length hstep
    simp only [List.length_cons] at hlen
    show _ :: fbGo t.length _ w (k + 1) = _ :: fbLoop _ w (k + 1)
    rw [fbGo_congr w.length w (Nat.le_refl _) _ _ t.length
      w.length (by omega) (Nat.le_refl _)]
    rfl

theorem fbLoop_skip {l : List Char} (rest pre : List Char) (k : Nat)
    (hl : ∀ c ∈ l, c ≠ '\x60') :
    fbLoop pre (l ++ rest) k = fbLoop (l.reverse ++ pre) rest k := by
  induction l generalizing pre with
  | nil => simp
  | cons c cs ih =>
    rw [List.cons_append, fbLoop_cons,
      tryFence_none_head _ (hl c (by simp))]
    rw [ih _ (fun x hx => hl x (by simp [hx]))]
    simp [List.append_assoc]

theorem fbLoop_free {l : List Char} (pre : List Char) (k : Nat)
    (hl : ∀ c ∈ l, c ≠ '\x60') : fbLoop pre l k = [] := by
  have h := fbLoop_skip [] pre k hl
  rw [List.append_nil] at h
  rw [h]
  rfl

theorem prefixOf_backtick_free {X Y : List Char} (hX : ∀ c ∈ X, c ≠ '\x60') :
    ∀ i, i < X.length → prefixOf "\x60\x60\x60".data ((X ++ Y).drop i) = false := by
  intro i hi
  rw [List.drop_append_eq_append_drop, Nat.sub_eq_zero_of_le (Nat.le_of_lt hi),
    List.drop_zero]
  cases hd : X.drop i with
  | nil =>
    have := List.length_drop i X
    rw [hd] at this
    simp at this
    omega
  | cons c cs =>
    have hc : c ∈ X := by
      have : c ∈ X.drop i := by rw [hd]; simp
      exact List.mem_of_mem_drop this
    have hcne : c ∉ "\x60\x60\x60".data := by
      simp
      exact hX c hc
    calc prefixOf "\x60\x60\x60".data ((c :: cs) ++ Y)
        = prefixOf "\x60\x60\x60".data ([] ++ c :: (cs ++ Y)) := by simp
      _ = prefixOf "\x60\x60\x60".data [] := prefixOf_cons_ne hcne
      _ = false := rfl

theorem tryFence_js {body post : List Char} (hbody : ∀ c ∈ body, c ≠ '\x60') :
    tryFence ("\x60\x60\x60js\n".data ++ (body ++ ("\x60\x60\x60".data ++ post))) =
      some ("js".data, body, post) := by
  have htake : ("\x60\x60\x60js\n".data ++ (body ++ ("\x60\x60\x60".data ++ post))).takeWhile
      (fun c => c = '\x60') = "\x60\x60\x60".data := rfl
  rw [tryFence]
  rw [htake]
  rw [if_neg (by decide)]
  have hdrop : ("\x60\x60\x60js\n".data ++ (body ++ ("\x60\x60\x60".data ++ post))).drop
      ("\x60\x60\x60".data : List Char).length =
      "js\n".data ++ (body ++ ("\x60\x60\x60".data ++ post)) := rfl
  rw [hdrop]
  have hdw : ("js\n".data ++ (body ++ ("\x60\x60\x60".data ++ post))).dropWhile fenceLangCh =
      '\n' :: (body ++ ("\x60\x60\x60".data ++ post)) := rfl
  rw [hdw]
  have hfs : findSplit "\x60\x60\x60".data (body ++ ("\x60\x60\x60".data ++ post)) =
      some (body, post) :=
    findSplit_exact (prefixOf_backtick_free hbody)
  show (match findSplit "\x60\x60\x60".data (body ++ ("\x60\x60\x60".data ++ post)) with
    | some (b, rest) =>
      some (List.takeWhile fenceLangCh
        ("js\n".data ++ (body ++ ("\x60\x60\x60".data ++ post))), b, rest)
    | none => none) = some ("js".data, body, post)
  rw [hfs]
  rfl

/-- **C9** — when the primary scan finds nothing and the text holds exactly
one fenced block tagged `js`, immediately preceded by the line
`filename: app.js`, the fallback yields the one artifact `app.js` / `js`
whose content is the trimmed block body. -/
theorem fallback_filename_hint (pre body post : List Char)
    (hpre : ∀ c ∈ pre, c ≠ '\x60')
    (hbody : ∀ c ∈ body, c ≠ '\x60')
    (hpost : ∀ c ∈ post, c ≠ '\x60')
    (hnostart : countOcc startColon
      (pre ++ ("\x60\x60\x60js\n".data ++ (body ++ ("\x60\x60\x60".data ++ post)))) = 0)
    (hlast : lastSeg (splitCh '\n' (trimJs pre)) = "filename: app.js".data) :
    parseGeneratedContent (String.mk
      (pre ++ ("\x60\x60\x60js\n".data ++ (body ++ ("\x60\x60\x60".data ++ post))))) =
      [{ name := "app.js", language := "js", content := String.mk (trimJs body) }] := by
  have hempty : parseLoopC
      (pre ++ ("\x60\x60\x60js\n".data ++ (body ++ ("\x60\x60\x60".data ++ post)))) = [] :=
    parseLoopC_empty hnostart
  show (let files := parseLoopC (String.mk _).data
    if files.isEmpty then fbLoop [] (String.mk _).data 1 else files) = _
  simp only
  rw [hempty]
  simp only [List.isEmpty_nil, if_true]
  rw [fbLoop_skip _ [] 1 hpre]
  have hcons : "\x60\x60\x60js\n".data ++ (body ++ ("\x60\x60\x60".data ++ post)) =
      '\x60' :: ("\x60\x60js\n".data ++ (body ++ ("\x60\x60\x60".data ++ post))) := rfl
  rw [hcons, fbLoop_cons]
  rw [← hcons, tryFence_js hbody]
  have hname : fbName (pre.reverse ++ []).reverse 1 "js".data = "app.js".data := by
    simp only [fbName, List.append_nil, List.reverse_reverse]
    rw [hlast]
    rfl
  dsimp only
  rw [fbLoop_free _ _ hpost]
  simp only [hname]
  rfl

/-- **C9** (witness) — the hint applied to a concrete prose-fence text. -/
theorem fallback_filename_hint_witness :
    parseGeneratedContent (String.mk
      ("filename: app.js\n".data ++ ("\x60\x60\x60js\n".data ++
        ("hello()".data ++ ("\x60\x60\x60".data ++ "\nEnjoy".data))))) =
      [{ name := "app.js", language := "js", content := "hello()" }] := by
  have h := fallback_filename_hint "filename: app.js\n".data "hello()".data
    "\nEnjoy".data (by decide) (by decide) (by decide) (by decide) (by rfl)
  rw [h]
  rfl

/-! ## Claims C7 and C4: framework linking — groundwork -/

theorem eatLit_self (lit r : List Char) : eatLit lit (lit ++ r) = some r := by
  unfold eatLit
  rw [if_pos (prefixOf_self_append _ _)]
  rw [List.drop_left]

theorem eatLit_none {lit s : List Char} (h : prefixOf lit s = false) :
    eatLit lit s = none := by
  unfold eatLit
  rw [h]
  rfl

theorem importStep1_none {s : List Char}
    (h : prefixOf "import".data s = false) : importStep1 s = none := by
  unfold importStep1
  rw [eatLit_none h]

theorem importStep2_none {s : List Char}
    (h : prefixOf "import".data s = false) : importStep2 s = none := by
  unfold importStep2
  rw [eatLit_none h]

theorem exportDefaultStep_none {s : List Char}
    (h : prefixOf "export".data s = false) : exportDefaultStep s = none := by
  unfold exportDefaultStep
  rw [eatLit_none h]

theorem exportStep_none {s : List Char}
    (h : prefixOf "export".data s = false) : exportStep s = none := by
  unfold exportStep
  rw [eatLit_none h]

theorem importPass_clean (step : List Char → Option (List Char × List Char))
    (pat : List Char)
    (hstep : ∀ s, prefixOf pat s = false → step s = none) :
    ∀ {l : List Char}, countOcc pat l = 0 → ∀ acc,
      importPass step l acc = (l, acc) := by
  intro l
  induction l with
  | nil => intro _ acc; rfl
  | cons c t ih =>
    intro h acc
    rw [importPass_cons, hstep _ (countOcc_cons_zero h).1]
    show (c :: (importPass step t acc).1, (importPass step t acc).2) = (c :: t, acc)
    rw [ih (countOcc_cons_zero h).2 acc]

theorem rewriteG_clean (step : List Char → Option (List Char × List Char))
    (pat : List Char)
    (hstep : ∀ s, prefixOf pat s = false → step s = none) :
    ∀ {l : List Char}, countOcc pat l = 0 → rewriteG step l = l := by
  intro l
  induction l with
  | nil => intro _; rfl
  | cons c t ih =>
    intro h
    rw [rewriteG_cons, hstep _ (countOcc_cons_zero h).1]
    show c :: rewriteG step t = c :: t
    rw [ih (countOcc_cons_zero h).2]

theorem countOcc_free_run {n : List Char} (a : List Char) {b : List Char}
    (hn : n ≠ []) (ha : ∀ c ∈ a, c ∉ n) :
    countOcc n (a ++ b) = countOcc n b := by
  induction a with
  | nil => simp
  | cons c t ih =>
    rw [List.cons_append, countOcc]
    cases hm : n with
    | nil => exact absurd hm hn
    | cons n0 ns =>
      have hne : n0 ≠ c := by
        intro he
        exact ha c (by simp) (by rw [hm, he]; simp)
      rw [show prefixOf (n0 :: ns) (c :: (t ++ b)) = false by
        simp only [prefixOf]
        rw [if_neg hne]]
      rw [← hm, ih (fun x hx => ha x (by simp [hx]))]
      simp

theorem capToQuote_std {path : List Char} (r : List Char)
    (hpath : ∀ c ∈ path, jsQuote c = false ∧ isLineTerm c = false) :
    capToQuote (path ++ ('\x27' :: r)) = some (path, r) := by
  induction path with
  | nil =>
    simp only [List.nil_append, capToQuote]
    rw [if_pos (by decide)]
  | cons c cs ih =>
    rw [List.cons_append, capToQuote]
    rw [if_neg (by rw [(hpath c (by simp)).1]; simp)]
    rw [if_neg (by rw [(hpath c (by simp)).2]; simp)]
    rw [ih (fun x hx => hpath x (by simp [hx]))]
    rfl

theorem fromTail_std {path : List Char} (rest : List Char)
    (hpath : ∀ c ∈ path, jsQuote c = false ∧ isLineTerm c = false) :
    fromTail ("from \x27".data ++ (path ++ ('\x27' :: (';' :: rest)))) =
      some (path, rest) := by
  have h1 : "from \x27".data ++ (path ++ ('\x27' :: (';' :: rest))) =
      "from".data ++ (' ' :: ('\x27' :: (path ++ ('\x27' :: (';' :: rest))))) := rfl
  have h2 : eatWs1 (' ' :: ('\x27' :: (path ++ ('\x27' :: (';' :: rest))))) =
      some ('\x27' :: (path ++ ('\x27' :: (';' :: rest)))) := by
    show (if jsWs ' ' = true
      then some (List.dropWhile jsWs ('\x27' :: (path ++ ('\x27' :: (';' :: rest)))))
      else none) = _
    rw [if_pos (by decide)]
    rw [List.dropWhile_cons]
    rw [if_neg (by decide)]
  unfold fromTail
  rw [h1, eatLit_self]
  dsimp only
  rw [h2]
  dsimp only
  rw [if_pos (by decide), capToQuote_std (';' :: rest) hpath]
  rfl

theorem getLastD_mem (c : Char) (cs : List Char) : cs.getLastD c ∈ c :: cs := by
  induction cs generalizing c with
  | nil => simp [List.getLastD]
  | cons d ds ih =>
    rw [List.getLastD_cons]
    have := ih d
    simp only [List.mem_cons] at this ⊢
    tauto

theorem importScan1_run :
    ∀ (l : List Char) (prev : Char) (k : Nat) (rest : List Char),
      jsWs prev = false → (∀ c ∈ l, jsWs c = false) →
      importScan1 prev k (l ++ rest) =
        importScan1 (l.getLastD prev) (k + l.length) rest := by
  intro l
  induction l with
  | nil =>
    intro prev k rest _ _
    simp [List.getLastD]
  | cons c cs ih =>
    intro prev k rest hprev hl
    rw [List.cons_append, importScan1]
    rw [hprev, Bool.and_false]
    rw [ih c (k + 1) rest (hl c (by simp)) (fun x hx => hl x (by simp [hx]))]
    rw [List.getLastD_cons]
    simp only [List.length_cons]
    have harith : k + 1 + cs.length = k + (cs.length + 1) := by omega
    rw [harith]
    rfl

theorem importScan1_fire (prev : Char) (k : Nat) (c : Char) (t : List Char)
    (pr : List Char × List Char) (hk : 2 ≤ k) (hprev : jsWs prev = true)
    (hf : fromTail (c :: t) = some pr) : importScan1 prev k (c :: t) = some pr := by
  rw [importScan1]
  rw [hprev, decide_eq_true hk]
  rw [hf]
  rfl

/-- A standard-form import statement followed by the rest of the body:
`import <binding> from \x27<path>\x27;<body>`. -/
def importContent (bind path body : List Char) : List Char :=
  "import".data ++ (' ' :: (bind ++ (' ' :: ("from \x27".data ++
    (path ++ ('\x27' :: (';' :: body)))))))

/-- The bare import statement (the text the matcher captures verbatim). -/
def importStmt (bind path : List Char) : List Char := importContent bind path []

/-- A script artifact whose content opens with one import statement. -/
def mkScriptFile (n lang bind path body : List Char) : GeneratedFile :=
  { name := String.mk n
    language := String.mk lang
    content := String.mk (importContent bind path body) }

theorem importStep1_std (bind path body : List Char)
    (hbne : bind ≠ []) (hbind : ∀ c ∈ bind, jsWs c = false)
    (hpath : ∀ c ∈ path, jsQuote c = false ∧ isLineTerm c = false) :
    importStep1 (importContent bind path body) = some (path, body) := by
  obtain ⟨b0, bs, rfl⟩ : ∃ b0 bs, bind = b0 :: bs := by
    cases bind with
    | nil => exact absurd rfl hbne
    | cons b0 bs => exact ⟨b0, bs, rfl⟩
  unfold importStep1 importContent
  rw [eatLit_self]
  show (if jsWs ' ' = true then
    importScan1 'i' 0 (' ' :: ((b0 :: bs) ++ (' ' :: ("from \x27".data ++
      (path ++ ('\x27' :: (';' :: body))))))) else none) = some (path, body)
  rw [if_pos (by decide)]
  show importScan1 b0 2 (bs ++ (' ' :: ("from \x27".data ++
    (path ++ ('\x27' :: (';' :: body)))))) = some (path, body)
  rw [importScan1_run bs b0 2 _ (hbind b0 (by simp))
    (fun c hc => hbind c (by simp [hc]))]
  rw [importScan1]
  rw [hbind (bs.getLastD b0) (getLastD_mem b0 bs), Bool.and_false]
  show importScan1 ' ' (2 + bs.length + 1) ("from \x27".data ++
    (path ++ ('\x27' :: (';' :: body)))) = some (path, body)
  exact importScan1_fire ' ' (2 + bs.length + 1) 'f'
    ("rom \x27".data ++ (path ++ ('\x27' :: (';' :: body)))) (path, body)
    (by omega) (by decide) (fromTail_std body hpath)

theorem processContentJs_single (bind path body : List Char)
    (acc : List (List Char))
    (hbne : bind ≠ []) (hbind : ∀ c ∈ bind, jsWs c = false)
    (hpath : ∀ c ∈ path, jsQuote c = false ∧ isLineTerm c = false)
    (hbi : countOcc "import".data body = 0)
    (hbe : countOcc "export".data body = 0) :
    processContentJs (importContent bind path body) acc =
      (body, if isLocalPath path then acc
             else addImport acc (importStmt bind path)) := by
  have hstep1 : ∀ s, prefixOf "import".data s = false → importStep1 s = none :=
    fun s h => importStep1_none h
  have hstep2 : ∀ s, prefixOf "import".data s = false → importStep2 s = none :=
    fun s h => importStep2_none h
  have hexp1 : ∀ s, prefixOf "export".data s = false → exportDefaultStep s = none :=
    fun s h => exportDefaultStep_none h
  have hexp2 : ∀ s, prefixOf "export".data s = false → exportStep s = none :=
    fun s h => exportStep_none h
  have hsplit : importContent bind path body = importStmt bind path ++ body := by
    simp [importContent, importStmt, List.append_assoc]
  have hstmtpos : 0 < (importStmt bind path).length := by
    simp [importStmt, importContent]
  have htake : (importContent bind path body).take
      ((importContent bind path body).length - body.length) =
      importStmt bind path := by
    rw [hsplit, List.length_append, Nat.add_sub_cancel, List.take_left]
  have hlt : body.length < (importContent bind path body).length := by
    rw [hsplit, List.length_append]
    omega
  have hcons : importContent bind path body =
      'i' :: ("mport".data ++ (' ' :: (bind ++ (' ' :: ("from \x27".data ++
        (path ++ ('\x27' :: (';' :: body)))))))) := rfl
  unfold processContentJs
  rw [hcons, importPass_cons, ← hcons]
  rw [importStep1_std bind path body hbne hbind hpath]
  dsimp only
  rw [if_pos hlt, htake]
  rw [importPass_clean importStep1 "import".data hstep1 hbi]
  rw [importPass_clean importStep2 "import".data hstep2 hbi]
  rw [rewriteG_clean exportDefaultStep "export".data hexp1 hbe]
  rw [rewriteG_clean exportStep "export".data hexp2 hbe]

/-- **C7** — framework linking of two script artifacts, each opening with the
same standard-form import statement: the statement is removed from both
rewritten bodies (each part is just the provenance comment and the remaining
body); an external path is collected verbatim and, occurring twice, kept
once; a relative or local path (leading `.` or `/`) is discarded entirely,
leaving the shared import accumulator (and hence the prepended import block
of the linked script) empty. -/
theorem import_stripping
    (n1 n2 lang1 lang2 bind path body1 body2 : List Char)
    (hs1 : isScriptName n1 = true) (hs2 : isScriptName n2 = true)
    (hscore : getScore n1 ≤ getScore n2)
    (hbne : bind ≠ []) (hbind : ∀ c ∈ bind, jsWs c = false)
    (hpath : ∀ c ∈ path, jsQuote c = false ∧ isLineTerm c = false)
    (hb1i : countOcc "import".data body1 = 0)
    (hb1e : countOcc "export".data body1 = 0)
    (hb2i : countOcc "import".data body2 = 0)
    (hb2e : countOcc "export".data body2 = 0) :
    processedJsPartsOf
        [mkScriptFile n1 lang1 bind path body1,
         mkScriptFile n2 lang2 bind path body2] =
      ["// --- ".data ++ n1 ++ " ---\n".data ++ body1,
       "// --- ".data ++ n2 ++ " ---\n".data ++ body2] ∧
    externalImportsOf
        [mkScriptFile n1 lang1 bind path body1,
         mkScriptFile n2 lang2 bind path body2] =
      (if isLocalPath path then [] else [importStmt bind path]) ∧
    combinedImportsOf
        [mkScriptFile n1 lang1 bind path body1,
         mkScriptFile n2 lang2 bind path body2] =
      (if isLocalPath path then [] else importStmt bind path) := by
  have e1 : isScriptName (mkScriptFile n1 lang1 bind path body1).name.data =
      isScriptName n1 := rfl
  have e2 : isScriptName (mkScriptFile n2 lang2 bind path body2).name.data =
      isScriptName n2 := rfl
  have hjs : jsFilesOf [mkScriptFile n1 lang1 bind path body1,
      mkScriptFile n2 lang2 bind path body2] =
      [mkScriptFile n1 lang1 bind path body1,
       mkScriptFile n2 lang2 bind path body2] := by
    unfold jsFilesOf
    simp [List.filter_cons, e1, e2, hs1, hs2]
  have hsort : sortedJsOf [mkScriptFile n1 lang1 bind path body1,
      mkScriptFile n2 lang2 bind path body2] =
      [mkScriptFile n1 lang1 bind path body1,
       mkScriptFile n2 lang2 bind path body2] := by
    unfold sortedJsOf
    rw [hjs]
    unfold stableSortByScore
    simp only [List.foldl_cons, List.foldl_nil]
    rw [show insAfterLe (fun f => getScore f.name.data)
      (mkScriptFile n1 lang1 bind path body1) [] =
      [mkScriptFile n1 lang1 bind path body1] from rfl]
    rw [insAfterLe]
    rw [if_pos (show getScore (mkScriptFile n1 lang1 bind path body1).name.data ≤
      getScore (mkScriptFile n2 lang2 bind path body2).name.data from hscore)]
    rfl
  have c1 : (mkScriptFile n1 lang1 bind path body1).content.data =
      importContent bind path body1 := rfl
  have c2 : (mkScriptFile n2 lang2 bind path body2).content.data =
      importContent bind path body2 := rfl
  by_cases hl : isLocalPath path = true
  · have hall : processAllJs [mkScriptFile n1 lang1 bind path body1,
        mkScriptFile n2 lang2 bind path body2] [] =
        (["// --- ".data ++ n1 ++ " ---\n".data ++ body1,
          "// --- ".data ++ n2 ++ " ---\n".data ++ body2], []) := by
      simp only [processAllJs]
      rw [c1, processContentJs_single bind path body1 [] hbne hbind hpath hb1i hb1e,
        if_pos hl]
      dsimp only
      rw [c2, processContentJs_single bind path body2 [] hbne hbind hpath hb2i hb2e,
        if_pos hl]
      rfl
    refine ⟨?_, ?_, ?_⟩
    · unfold processedJsPartsOf
      rw [hsort, hall]
    · unfold externalImportsOf
      rw [hsort, hall, if_pos hl]
    · unfold combinedImportsOf externalImportsOf
      rw [hsort, hall, if_pos hl]
      rfl
  · have ha1 : addImport [] (importStmt bind path) = [importStmt bind path] := by
      simp [addImport]
    have ha2 : addImport [importStmt bind path] (importStmt bind path) =
        [importStmt bind path] := by
      simp [addImport]
    have hall : processAllJs [mkScriptFile n1 lang1 bind path body1,
        mkScriptFile n2 lang2 bind path body2] [] =
        (["// --- ".data ++ n1 ++ " ---\n".data ++ body1,
          "// --- ".data ++ n2 ++ " ---\n".data ++ body2],
         [importStmt bind path]) := by
      simp only [processAllJs]
      rw [c1, processContentJs_single bind path body1 [] hbne hbind hpath hb1i hb1e,
        if_neg hl, ha1]
      dsimp only
      rw [c2, processContentJs_single bind path body2 [importStmt bind path]
        hbne hbind hpath hb2i hb2e, if_neg hl, ha2]
      rfl
    refine ⟨?_, ?_, ?_⟩
    · unfold processedJsPartsOf
      rw [hsort, hall]
    · unfold externalImportsOf
      rw [hsort, hall, if_neg hl]
    · unfold combinedImportsOf externalImportsOf
      rw [hsort, hall, if_neg hl]
      rfl

/-- **C7** (witness) — the linking applied to `utils.js` and `App.jsx`, both
importing `React` from the external path `react`. -/
theorem import_stripping_witness :
    processedJsPartsOf
        [mkScriptFile "utils.js".data "js".data "React".data "react".data
          "\nconst x = 1;".data,
         mkScriptFile "App.jsx".data "jsx".data "React".data "react".data
          "\nconst App = x;".data] =
      ["// --- utils.js ---\n\nconst x = 1;".data,
       "// --- App.jsx ---\n\nconst App = x;".data] ∧
    externalImportsOf
        [mkScriptFile "utils.js".data "js".data "React".data "react".data
          "\nconst x = 1;".data,
         mkScriptFile "App.jsx".data "jsx".data "React".data "react".data
          "\nconst App = x;".data] =
      ["import React from \x27react\x27;".data] := by
  have h := import_stripping "utils.js".data "App.jsx".data "js".data "jsx".data
    "React".data "react".data "\nconst x = 1;".data "\nconst App = x;".data
    (by rfl) (by rfl) (by decide) (by decide) (by decide) (by decide)
    (by rfl) (by rfl) (by rfl) (by rfl)
  refine ⟨h.1.trans (by rfl), h.2.1.trans (by rfl)⟩

/-! ## Claim C4: the synthesized mount call -/

/-- The mount call of the synthesized mount script. -/
def mountNeedle : List Char := "root.render(React.createElement(App))".data

/-- `appPre` up to its final newline. -/
def appPreA : List Char :=
  "<script type=\"text/babel\" data-type=\"module\">".data

/-- The process shim between its leading newline and its final newline. -/
def shimS1 : List Char :=
  "      window.process = \x7b \n        env: \x7b NODE_ENV: \x27development\x27 \x7d \n      \x7d;".data

/-- `appB` between its leading newline and its final newline. -/
def appBS1 : List Char :=
  "      \n      // Error boundary wrapper for safety\n      try \x7b".data

/-- The mount script between its leading newline and its final newline. -/
def mountS1 : List Char :=
  "         if (typeof App !== \x27undefined\x27) \x7b\n           const root = ReactDOM.createRoot(document.getElementById(\x27root\x27));\n           root.render(React.createElement(App));\n         \x7d".data

theorem countOcc_cons_notmem {n b : List Char} {c : Char} (hn : n ≠ [])
    (hc : c ∉ n) : countOcc n (c :: b) = countOcc n b := by
  rw [countOcc]
  cases hm : n with
  | nil => exact absurd hm hn
  | cons n0 ns =>
    have hne : n0 ≠ c := by
      intro he
      exact hc (by rw [hm, he]; simp)
    rw [show prefixOf (n0 :: ns) (c :: b) = false by
      simp only [prefixOf]
      rw [if_neg hne]]
    simp

/-- **C4** — on a framework-classified set with no explicit mount call but an
`App` binding among the rewritten parts, the mount script is synthesized and
the linked script contains its mount call exactly once (given the dynamic
parts carry none); on a set with an explicit mount call nothing is
synthesized. -/
theorem framework_mount_synthesis (files files2 : List GeneratedFile)
    (hclass : classify files = ProjectKind.framework)
    (hentry : entryPointExistsOf files = false)
    (happ : (processedJsPartsOf files).any (fun p =>
      hasSub "function App".data p || hasSub "class App".data p ||
      hasSub "const App".data p) = true)
    (hcomb : countOcc mountNeedle (combinedImportsOf files) = 0)
    (hjoin : countOcc mountNeedle
      (joinSep "\n\n".data (processedJsPartsOf files)) = 0)
    (hentry2 : entryPointExistsOf files2 = true) :
    mountScriptOf files = mountScriptStr ∧
    countOcc mountNeedle mountScriptStr = 1 ∧
    countOcc mountNeedle (appScriptOf files) = 1 ∧
    mountScriptOf files2 = [] := by
  have hm : mountScriptOf files = mountScriptStr := by
    unfold mountScriptOf
    rw [hentry, happ]
    rfl
  have hm2 : mountScriptOf files2 = [] := by
    unfold mountScriptOf
    rw [hentry2]
    rfl
  refine ⟨hm, by decide, ?_, hm2⟩
  have hsplit1 : ∀ X : List Char, appPre ++ X =
      appPreA ++ ('\n' :: ("      ".data ++ X)) := fun X => rfl
  have hsplit2 : ∀ X : List Char, appA ++ X =
      '\n' :: ("      ".data ++ X) := fun X => rfl
  have hsplit3 : ∀ X : List Char, processShimStr ++ X =
      '\n' :: (shimS1 ++ ('\n' :: ("    ".data ++ X))) := fun X => rfl
  have hsplit4 : ∀ X : List Char, appB ++ X =
      '\n' :: (appBS1 ++ ('\n' :: ("        ".data ++ X))) := fun X => rfl
  have hsplit5 : ∀ X : List Char, appC ++ X =
      '\n' :: ("        ".data ++ X) := fun X => rfl
  have hsplit6 : ∀ X : List Char, mountScriptStr ++ X =
      '\n' :: (mountS1 ++ ('\n' :: ("       ".data ++ X))) := fun X => rfl
  unfold appScriptOf
  rw [hm]
  simp only [List.append_assoc]
  rw [hsplit1]
  rw [countOcc_append_cons (by decide)]
  rw [countOcc_free_run "      ".data (by decide) (by decide)]
  rw [hsplit2]
  rw [countOcc_append_cons (by decide)]
  rw [countOcc_free_run "      ".data (by decide) (by decide)]
  rw [hsplit3]
  rw [countOcc_cons_notmem (by decide) (by decide)]
  rw [countOcc_append_cons (by decide)]
  rw [countOcc_free_run "    ".data (by decide) (by decide)]
  rw [hsplit4]
  rw [countOcc_cons_notmem (by decide) (by decide)]
  rw [countOcc_append_cons (by decide)]
  rw [countOcc_free_run "        ".data (by decide) (by decide)]
  rw [hsplit5]
  rw [countOcc_append_cons (by decide)]
  rw [countOcc_free_run "        ".data (by decide) (by decide)]
  rw [hsplit6]
  rw [countOcc_cons_notmem (by decide) (by decide)]
  rw [countOcc_append_cons (by decide)]
  rw [countOcc_free_run "       ".data (by decide) (by decide)]
  rw [hcomb, hjoin]
  rw [show countOcc mountNeedle appPreA = 0 from by decide]
  rw [show countOcc mountNeedle shimS1 = 0 from by decide]
  rw [show countOcc mountNeedle appBS1 = 0 from by decide]
  rw [show countOcc mountNeedle mountS1 = 1 from by decide]
  rw [show countOcc mountNeedle appPost = 0 from by decide]

/-- **C4** (witness) — the synthesis applied to a one-artifact framework set
and the suppression applied to a set with an explicit mount call. -/
theorem framework_mount_synthesis_witness :
    mountScriptOf [mkScriptFile "App.jsx".data "jsx".data "React".data
      "react".data "\nconst App = 1;".data] = mountScriptStr ∧
    countOcc mountNeedle (appScriptOf [mkScriptFile "App.jsx".data "jsx".data
      "React".data "react".data "\nconst App = 1;".data]) = 1 ∧
    mountScriptOf [⟨"index.js", "js", "createRoot(App)"⟩] = [] := by
  have h := framework_mount_synthesis
    [mkScriptFile "App.jsx".data "jsx".data "React".data "react".data
      "\nconst App = 1;".data]
    [⟨"index.js", "js", "createRoot(App)"⟩]
    (by rfl) (by rfl) (by rfl) (by decide) (by decide) (by rfl)
  exact ⟨h.1, h.2.2.1, h.2.2.2⟩

end CodeGen
